import Mathlib

/-!
Verification development for the meta2bseek repository (Rust sources under `src/`).

Modelling conventions for the shallow embedding:
* Rust `u64` / `u32` / `usize` values are modelled as `Nat`, with `% 2 ^ 64`
  (resp. `% 2 ^ 32`) inserted exactly where the machine arithmetic can wrap
  (`wrapping_add`, `<<=` on a fixed-width register); bitwise `&`, `|`, `^`, `!`,
  `>>`, `<<` are modelled with `Nat.land`/`Nat.lor`/`Nat.xor`/shifts.
* Rust `f64` values are modelled as exact real numbers (`ℝ`) where `powf` with a
  fractional exponent occurs (`contain.rs`), and as exact rationals (`ℚ`) where the
  code only performs field operations and comparisons.
* Byte strings are `List Nat` (each element a byte value), gene sequences included.
* Hash maps / hash sets are modelled as association lists / lists; insertion order
  is irrelevant to the claims proved here.
-/

namespace Meta2bseek

/-! ## sketch.rs: byte table, avalanche hash, rolling k-mer extraction -/

/-- The 256-entry `BYTE_TO_SEQ` table of `src/sketch.rs`: indices 0,1,2,3 map to
themselves, `A`/`a` ↦ 0, `C`/`c` ↦ 1, `G`/`g` ↦ 2, `T`/`t` ↦ 3, everything else ↦ 4. -/
def byteToSeq (b : Nat) : Nat :=
  if b < 4 then b
  else if b = 65 ∨ b = 97 then 0
  else if b = 67 ∨ b = 99 then 1
  else if b = 71 ∨ b = 103 then 2
  else if b = 84 ∨ b = 116 then 3
  else 4

/-- `mm_hash64` of `src/sketch.rs` (the xor/shift/multiply-free avalanche hash,
all operations on `u64`, i.e. modulo `2^64`; `!x` is the 64-bit complement). -/
def mm_hash64 (kmer : Nat) : Nat :=
  let M := 2 ^ 64
  let k1 := (M - 1) ^^^ ((kmer % M + (kmer % M) <<< 21 % M) % M)
  let k2 := k1 ^^^ (k1 >>> 24)
  let k3 := ((k2 + (k2 <<< 3) % M) % M + (k2 <<< 8) % M) % M
  let k4 := k3 ^^^ (k3 >>> 14)
  let k5 := ((k4 + (k4 <<< 2) % M) % M + (k4 <<< 4) % M) % M
  let k6 := k5 ^^^ (k5 >>> 28)
  (k6 + (k6 <<< 31) % M) % M

/-- `u64::MAX >> (std::mem::size_of::<u64>() * 8 - 2 * k)` of `extract_kmers`. -/
def kmerMask (k : Nat) : Nat := (2 ^ 64 - 1) >>> (64 - 2 * k)

/-- `!(3 << (2 * k - 2))` of `extract_kmers` (64-bit complement). -/
def revMask (k : Nat) : Nat := (2 ^ 64 - 1) ^^^ (3 <<< (2 * k - 2))

/-- `u64::MAX / (c as u64)`, the FracMinHash selection threshold. -/
def fracThreshold (c : Nat) : Nat := (2 ^ 64 - 1) / c

/-- One step of the forward rolling register in the main loop of `extract_kmers`:
`rolling_kmer_f <<= 2; rolling_kmer_f |= nuc_f; rolling_kmer_f &= mask;`. -/
def stepF (k f n : Nat) : Nat := ((f <<< 2) % 2 ^ 64 ||| n) &&& kmerMask k

/-- One step of the reverse rolling register in the main loop of `extract_kmers`:
`rolling_kmer_r >>= 2; rolling_kmer_r &= rev_mask; rolling_kmer_r |= nuc_r << (2*(k-1));`. -/
def stepR (k r n : Nat) : Nat :=
  ((r >>> 2) &&& revMask k) ||| ((3 - n) <<< (2 * (k - 1)) % 2 ^ 64)

/-- Forward register step in the initialisation loop (no mask is applied there). -/
def stepFInit (f n : Nat) : Nat := (f <<< 2) % 2 ^ 64 ||| n

/-- Reverse register step in the initialisation loop (no `rev_mask` is applied there). -/
def stepRInit (k r n : Nat) : Nat := (r >>> 2) ||| ((3 - n) <<< (2 * (k - 1)) % 2 ^ 64)

/-- The initialisation loop of `extract_kmers` over the first `k-1` bytes; an
invalid nucleotide makes the whole function return (modelled by `none`). -/
def initPhase (k : Nat) : Nat → Nat → List Nat → Option (Nat × Nat)
  | f, r, [] => some (f, r)
  | f, r, b :: rest =>
    let n := byteToSeq b
    if 4 ≤ n then none else initPhase k (stepFInit f n) (stepRInit k r n) rest

/-- The main sliding-window loop of `extract_kmers` (`for i in k-1..len`): an
invalid nucleotide is skipped by `continue` — the rolling registers are NOT reset. -/
def mainLoop (c k : Nat) : Nat → Nat → List Nat → List Nat
  | _, _, [] => []
  | f, r, b :: rest =>
    let n := byteToSeq b
    if 4 ≤ n then mainLoop c k f r rest
    else
      let f' := stepF k f n
      let r' := stepR k r n
      let canonical := if f' < r' then f' else r'
      let h := mm_hash64 canonical
      if h < fracThreshold c then h :: mainLoop c k f' r' rest
      else mainLoop c k f' r' rest

/-- `extract_kmers` of `src/sketch.rs` (the list of pushed hash values). -/
def extract_kmers (c k : Nat) (s : List Nat) : List Nat :=
  if s.length < k then []
  else
    match initPhase k 0 0 (s.take (k - 1)) with
    | none => []
    | some (f, r) => mainLoop c k f r (s.drop (k - 1))

/-- The main loop of `extract_kmers_positions`: identical to `mainLoop` but records
`(contig_number, i, hash)` where `i` is the byte index (advanced on every byte). -/
def mainLoopPos (c k contig : Nat) : Nat → Nat → Nat → List Nat → List (Nat × Nat × Nat)
  | _, _, _, [] => []
  | i, f, r, b :: rest =>
    let n := byteToSeq b
    if 4 ≤ n then mainLoopPos c k contig (i + 1) f r rest
    else
      let f' := stepF k f n
      let r' := stepR k r n
      let canonical := if f' < r' then f' else r'
      let h := mm_hash64 canonical
      if h < fracThreshold c then (contig, i, h) :: mainLoopPos c k contig (i + 1) f' r' rest
      else mainLoopPos c k contig (i + 1) f' r' rest

/-- `extract_kmers_positions` of `src/sketch.rs`. -/
def extract_kmers_positions (c k : Nat) (contig : Nat) (s : List Nat) :
    List (Nat × Nat × Nat) :=
  if s.length < k then []
  else
    match initPhase k 0 0 (s.take (k - 1)) with
    | none => []
    | some (f, r) => mainLoopPos c k contig (k - 1) f r (s.drop (k - 1))

/-! ### Specification-side view of the rolling registers

`encBE w` is the big-endian 2-bit encoding of a nucleotide window `w`
(`foldl (fun a n => a * 4 + n) 0`), `rcN w` its reverse complement at the
2-bit level. These are used to state what `extract_kmers` computes. -/

/-- Big-endian 2-bit encoding of a window of nucleotide codes. -/
def encBE (w : List Nat) : Nat := w.foldl (fun a n => a * 4 + n) 0

/-- Reverse complement of a window of 2-bit nucleotide codes. -/
def rcN (w : List Nat) : List Nat := (w.map (fun n => 3 - n)).reverse

/-- All length-`k` windows of a list, left to right. -/
def slidingWindows (k : Nat) : List α → List (List α)
  | [] => []
  | a :: l => if l.length + 1 < k then [] else (a :: l).take k :: slidingWindows k l

/-- The hash a window contributes, if selected by the FracMinHash threshold. -/
def windowEmit (c : Nat) (w : List Nat) : Option Nat :=
  let h := mm_hash64 (min (encBE w) (encBE (rcN w)))
  if h < fracThreshold c then some h else none

/-- The valid-nucleotide projection of a byte: `some` of its 2-bit code, or `none`. -/
def toNuc? (b : Nat) : Option Nat := if byteToSeq b < 4 then some (byteToSeq b) else none

/-- Specification of `extract_kmers`: slide a width-`k` window over the 2-bit codes
of the *valid* bytes of the input (invalid bytes deleted), hash the canonical
(min of forward and reverse-complement) encoding, and keep sub-threshold hashes. -/
def kmersSpec (c k : Nat) (s : List Nat) : List Nat :=
  (slidingWindows k (s.filterMap toNuc?)).filterMap (windowEmit c)

/-- Window-by-window restatement of the main loop, used to bridge the rolling
registers and `kmersSpec`: `win` is the window of the `k-1` most recent valid
nucleotide codes. -/
def specTail (c k : Nat) : List Nat → List Nat → List Nat
  | _, [] => []
  | win, b :: rest =>
    let n := byteToSeq b
    if 4 ≤ n then specTail c k win rest
    else
      let w := win ++ [n]
      (windowEmit c w).toList ++ specTail c k (w.drop 1) rest

/-! ### Arithmetic lemmas about the rolling registers -/

theorem byteToSeq_lt_five (b : Nat) : byteToSeq b < 5 := by
  unfold byteToSeq
  repeat' split
  all_goals omega

theorem two_pow_sub_one_shiftRight {a b : Nat} (h : b ≤ a) :
    (2 ^ a - 1) >>> b = 2 ^ (a - b) - 1 := by
  rw [Nat.shiftRight_eq_div_pow]
  have hx : 1 ≤ 2 ^ b := Nat.one_le_two_pow
  have hy : 1 ≤ 2 ^ (a - b) := Nat.one_le_two_pow
  have hxy : 2 ^ b * 2 ^ (a - b) = 2 ^ a := by
    rw [← pow_add]; congr 1; omega
  obtain ⟨y, hy'⟩ : ∃ y, 2 ^ (a - b) = y + 1 := ⟨2 ^ (a - b) - 1, by omega⟩
  have hexp : 2 ^ b * (y + 1) = 2 ^ b * y + 2 ^ b := by ring
  have hsplit : 2 ^ a - 1 = 2 ^ b - 1 + 2 ^ b * y := by
    rw [← hxy, hy', hexp]; omega
  rw [hsplit, Nat.add_mul_div_left _ _ (by positivity : 0 < 2 ^ b),
    Nat.div_eq_of_lt (by omega)]
  omega

theorem kmerMask_eq {k : Nat} (hk : k ≤ 32) : kmerMask k = 2 ^ (2 * k) - 1 := by
  unfold kmerMask
  rw [two_pow_sub_one_shiftRight (by omega)]
  have h : 64 - (64 - 2 * k) = 2 * k := by omega
  rw [h]

/-- Bitwise-or of a multiple of `2^i` with a value below `2^i` is addition. -/
theorem lor_eq_add (i : Nat) {a b : Nat} (ha : 2 ^ i ∣ a) (hb : b < 2 ^ i) :
    a ||| b = a + b := by
  obtain ⟨q, rfl⟩ := ha
  rw [← Nat.mul_add_lt_is_or hb q]

theorem stepF_eq {k f n : Nat} (hk32 : k ≤ 32) (hn : n < 4) :
    stepF k f n = (f * 4 + n) % 2 ^ (2 * k) := by
  unfold stepF
  rw [kmerMask_eq hk32, Nat.and_pow_two_sub_one_eq_mod, Nat.shiftLeft_eq]
  have h4 : f * 2 ^ 2 = f * 4 := by norm_num
  have hdvd : (4 : Nat) ∣ f * 4 % 2 ^ 64 := by
    have h1 : (4 : Nat) ∣ f * 4 := ⟨f, by ring⟩
    have h2 : (4 : Nat) ∣ 2 ^ 64 := ⟨2 ^ 62, by norm_num⟩
    omega
  have hor : f * 4 % 2 ^ 64 ||| n = f * 4 % 2 ^ 64 + n :=
    lor_eq_add 2 (by norm_num at hdvd ⊢; omega) (by omega)
  rw [h4, hor]
  have hdvd2 : (2 : Nat) ^ (2 * k) ∣ 2 ^ 64 := pow_dvd_pow 2 (by omega)
  conv_rhs => rw [Nat.add_mod]
  rw [Nat.add_mod, Nat.mod_mod_of_dvd _ hdvd2]

/-- Under the register bound, `& rev_mask` is the identity: the bits cleared by
`rev_mask` (positions `2k-2` and `2k-1`) are already zero after `>> 2`. -/
theorem land_revMask {k x : Nat} (hk1 : 1 ≤ k) (hk32 : k ≤ 32)
    (hx : x < 2 ^ (2 * k - 2)) : x &&& revMask k = x := by
  apply Nat.eq_of_testBit_eq
  intro i
  rw [Nat.testBit_and]
  rcases Bool.eq_false_or_eq_true (x.testBit i) with hb | hb
  swap
  · simp [hb]
  · have hi : i < 2 * k - 2 := by
      by_contra hge
      have : x < 2 ^ i := lt_of_lt_of_le hx (Nat.pow_le_pow_right (by omega) (by omega))
      rw [Nat.testBit_lt_two_pow this] at hb
      exact Bool.false_ne_true hb
    have hmask : (revMask k).testBit i = true := by
      unfold revMask
      rw [Nat.testBit_xor, Nat.testBit_two_pow_sub_one, Nat.testBit_shiftLeft]
      have h1 : decide (i < 64) = true := by simp; omega
      have h2 : decide (i ≥ 2 * k - 2) = false := by simp; omega
      rw [h1, h2]
      simp
    rw [hb, hmask]
    simp

theorem stepR_eq {k r n : Nat} (hk1 : 1 ≤ k) (hk32 : k ≤ 32)
    (hr : r < 2 ^ (2 * k)) (hn : n < 4) :
    stepR k r n = r / 4 + (3 - n) * 2 ^ (2 * (k - 1)) := by
  unfold stepR
  have hshift : (3 - n) <<< (2 * (k - 1)) = (3 - n) * 2 ^ (2 * (k - 1)) :=
    Nat.shiftLeft_eq _ _
  have hsmall : (3 - n) * 2 ^ (2 * (k - 1)) < 2 ^ 64 := by
    have h1 : (3 - n) * 2 ^ (2 * (k - 1)) ≤ 3 * 2 ^ 62 := by
      apply Nat.mul_le_mul (by omega)
      exact Nat.pow_le_pow_right (by omega) (by omega)
    calc (3 - n) * 2 ^ (2 * (k - 1)) ≤ 3 * 2 ^ 62 := h1
      _ < 2 ^ 64 := by norm_num
  rw [hshift, Nat.mod_eq_of_lt hsmall, Nat.shiftRight_eq_div_pow]
  have hdiv : r / 2 ^ 2 < 2 ^ (2 * k - 2) := by
    rw [Nat.div_lt_iff_lt_mul (by positivity)]
    calc r < 2 ^ (2 * k) := hr
      _ = 2 ^ (2 * k - 2) * 2 ^ 2 := by rw [← pow_add]; congr 1; omega
  rw [land_revMask hk1 hk32 hdiv]
  have he : 2 * (k - 1) = 2 * k - 2 := by omega
  rw [Nat.lor_comm, lor_eq_add (2 * (k - 1)) ⟨3 - n, by ring⟩ (by rw [he]; exact hdiv),
    Nat.add_comm]
  norm_num

theorem stepRInit_eq {k r n : Nat} (hk1 : 1 ≤ k) (hk32 : k ≤ 32)
    (hr : r < 2 ^ (2 * k)) (hn : n < 4) :
    stepRInit k r n = r / 4 + (3 - n) * 2 ^ (2 * (k - 1)) := by
  unfold stepRInit
  have hshift : (3 - n) <<< (2 * (k - 1)) = (3 - n) * 2 ^ (2 * (k - 1)) :=
    Nat.shiftLeft_eq _ _
  have hsmall : (3 - n) * 2 ^ (2 * (k - 1)) < 2 ^ 64 := by
    have h1 : (3 - n) * 2 ^ (2 * (k - 1)) ≤ 3 * 2 ^ 62 := by
      apply Nat.mul_le_mul (by omega)
      exact Nat.pow_le_pow_right (by omega) (by omega)
    calc (3 - n) * 2 ^ (2 * (k - 1)) ≤ 3 * 2 ^ 62 := h1
      _ < 2 ^ 64 := by norm_num
  rw [hshift, Nat.mod_eq_of_lt hsmall, Nat.shiftRight_eq_div_pow]
  have hdiv : r / 2 ^ 2 < 2 ^ (2 * (k - 1)) := by
    rw [Nat.div_lt_iff_lt_mul (by positivity)]
    calc r < 2 ^ (2 * k) := hr
      _ = 2 ^ (2 * (k - 1)) * 2 ^ 2 := by rw [← pow_add]; congr 1; omega
  rw [Nat.lor_comm, lor_eq_add (2 * (k - 1)) ⟨3 - n, by ring⟩ hdiv, Nat.add_comm]
  norm_num

theorem stepFInit_eq {f n : Nat} (hf : f * 4 + n < 2 ^ 64) (hn : n < 4) :
    stepFInit f n = f * 4 + n := by
  unfold stepFInit
  rw [Nat.shiftLeft_eq]
  have h4 : f * 2 ^ 2 = f * 4 := by norm_num
  rw [h4, Nat.mod_eq_of_lt (by omega)]
  exact lor_eq_add 2 ⟨f, by ring⟩ (by omega)

/-! ### The 2-bit window encoding -/

theorem encBE_foldl (w : List Nat) (a : Nat) :
    w.foldl (fun a n => a * 4 + n) a = a * 4 ^ w.length + encBE w := by
  induction w generalizing a with
  | nil => simp [encBE]
  | cons x t ih =>
    simp only [List.foldl_cons, List.length_cons]
    rw [ih (a * 4 + x)]
    have h2 : encBE (x :: t) = x * 4 ^ t.length + encBE t := by
      unfold encBE
      simp only [List.foldl_cons, Nat.zero_mul, Nat.zero_add]
      rw [ih x]
      rfl
    rw [h2]
    ring

theorem encBE_cons (x : Nat) (t : List Nat) :
    encBE (x :: t) = x * 4 ^ t.length + encBE t := by
  unfold encBE
  simpa using encBE_foldl t x

theorem encBE_append (u v : List Nat) :
    encBE (u ++ v) = encBE u * 4 ^ v.length + encBE v := by
  unfold encBE
  rw [List.foldl_append]
  exact encBE_foldl v _

theorem encBE_snoc (w : List Nat) (n : Nat) : encBE (w ++ [n]) = encBE w * 4 + n := by
  rw [encBE_append]
  simp [encBE]

theorem encBE_lt (w : List Nat) (h : ∀ x ∈ w, x < 4) : encBE w < 4 ^ w.length := by
  induction w with
  | nil => simp [encBE]
  | cons x t ih =>
    rw [encBE_cons]
    have hx : x < 4 := h x (List.mem_cons_self x t)
    have ht := ih (fun y hy => h y (List.mem_cons_of_mem _ hy))
    have hx3 : x ≤ 3 := by omega
    calc x * 4 ^ t.length + encBE t ≤ 3 * 4 ^ t.length + encBE t :=
          Nat.add_le_add_right (Nat.mul_le_mul_right _ hx3) _
      _ < 3 * 4 ^ t.length + 4 ^ t.length := Nat.add_lt_add_left ht _
      _ = 4 ^ (x :: t).length := by simp [List.length_cons, pow_succ]; ring

theorem rcN_nil : rcN [] = [] := rfl

theorem rcN_length (w : List Nat) : (rcN w).length = w.length := by
  simp [rcN]

theorem rcN_lt (w : List Nat) : ∀ y ∈ rcN w, y < 4 := by
  intro y hy
  simp only [rcN, List.mem_reverse, List.mem_map] at hy
  obtain ⟨x, _, rfl⟩ := hy
  omega

theorem rcN_snoc (w : List Nat) (n : Nat) : rcN (w ++ [n]) = (3 - n) :: rcN w := by
  simp [rcN]

theorem rcN_cons (x : Nat) (t : List Nat) : rcN (x :: t) = rcN t ++ [3 - x] := by
  simp [rcN]

theorem rcN_rcN (w : List Nat) (h : ∀ x ∈ w, x < 4) : rcN (rcN w) = w := by
  unfold rcN
  rw [List.map_reverse, List.reverse_reverse, List.map_map]
  conv_rhs => rw [← List.map_id w]
  exact List.map_congr_left (fun x hx => by have := h x hx; simp; omega)

theorem four_pow_eq (x : Nat) : (4 : Nat) ^ x = 2 ^ (2 * x) := by
  rw [show (4 : Nat) = 2 ^ 2 by norm_num, ← pow_mul]

/-! ### What the initialisation loop computes -/

theorem initPhase_eq {k : Nat} (hk1 : 1 ≤ k) (hk32 : k ≤ 32) :
    ∀ (l w : List Nat), (∀ x ∈ w, x < 4) → (∀ b ∈ l, byteToSeq b < 4) →
    w.length + l.length ≤ k - 1 →
    initPhase k (encBE w) (encBE (rcN w) * 4 ^ (k - w.length)) l =
      some (encBE (w ++ l.map byteToSeq),
        encBE (rcN (w ++ l.map byteToSeq)) * 4 ^ (k - (w.length + l.length))) := by
  intro l
  induction l with
  | nil => intro w _ _ _; simp [initPhase]
  | cons b rest ih =>
    intro w hw hl hlen
    have hn : byteToSeq b < 4 := hl b (List.mem_cons_self b rest)
    set n := byteToSeq b with hndef
    have hwlen : w.length + 1 ≤ k - 1 := by
      have := hlen
      simp only [List.length_cons] at this
      omega
    have hewlt : encBE w < 4 ^ w.length := encBE_lt w hw
    have hrclt : encBE (rcN w) < 4 ^ w.length := by
      have := encBE_lt (rcN w) (rcN_lt w)
      rwa [rcN_length] at this
    show initPhase k _ _ (b :: rest) = _
    unfold initPhase
    rw [if_neg (by omega)]
    have hfstep : stepFInit (encBE w) n = encBE (w ++ [n]) := by
      rw [stepFInit_eq ?hbound hn, encBE_snoc]
      case hbound =>
        have h1 : encBE w * 4 + n < 4 ^ (w.length + 1) := by
          have : encBE w * 4 + n < 4 ^ w.length * 4 := by omega
          calc encBE w * 4 + n < 4 ^ w.length * 4 := this
            _ = 4 ^ (w.length + 1) := by rw [pow_succ]
        have h2 : (4 : Nat) ^ (w.length + 1) ≤ 4 ^ 31 :=
          Nat.pow_le_pow_right (by norm_num) (by omega)
        have h3 : (4 : Nat) ^ 31 < 2 ^ 64 := by norm_num
        omega
    have hrstep : stepRInit k (encBE (rcN w) * 4 ^ (k - w.length)) n =
        encBE (rcN (w ++ [n])) * 4 ^ (k - (w.length + 1)) := by
      have hrbound : encBE (rcN w) * 4 ^ (k - w.length) < 2 ^ (2 * k) := by
        rw [← four_pow_eq]
        calc encBE (rcN w) * 4 ^ (k - w.length) < 4 ^ w.length * 4 ^ (k - w.length) :=
              (Nat.mul_lt_mul_right (by positivity)).mpr hrclt
          _ = 4 ^ k := by rw [← pow_add]; congr 1; omega
      rw [stepRInit_eq hk1 hk32 hrbound hn]
      have hdiv : encBE (rcN w) * 4 ^ (k - w.length) / 4 =
          encBE (rcN w) * 4 ^ (k - w.length - 1) := by
        have he : (4 : Nat) ^ (k - w.length) = 4 ^ (k - w.length - 1) * 4 := by
          rw [← pow_succ]; congr 1; omega
        rw [he, ← mul_assoc, Nat.mul_div_cancel _ (by norm_num)]
      rw [hdiv, rcN_snoc, encBE_cons, rcN_length]
      rw [show (2 : Nat) ^ (2 * (k - 1)) = 4 ^ (k - 1) from (four_pow_eq (k - 1)).symm]
      have hsplit : (4 : Nat) ^ (k - 1) = 4 ^ w.length * 4 ^ (k - (w.length + 1)) := by
        rw [← pow_add]; congr 1; omega
      have hsplit2 : k - w.length - 1 = k - (w.length + 1) := by omega
      rw [hsplit, hsplit2]
      ring
    rw [hfstep, hrstep]
    have hlen' : w.length + 1 + rest.length ≤ k - 1 := by
      simp only [List.length_cons] at hlen
      omega
    have hih := ih (w ++ [n]) (by
        intro x hx
        rcases List.mem_append.mp hx with h | h
        · exact hw x h
        · simp at h; omega)
      (fun b' hb' => hl b' (List.mem_cons_of_mem _ hb'))
      (by simpa using hlen')
    simp only [List.length_append, List.length_cons, List.length_nil] at hih
    rw [hih]
    simp only [List.map_cons, List.length_cons, List.append_assoc, List.singleton_append]
    congr 3
    all_goals first
      | rfl
      | omega
      | (congr 1; omega)

theorem ite_lt_eq_min (a b : Nat) : (if a < b then a else b) = min a b := by
  rcases Nat.lt_or_ge a b with h | h
  · rw [if_pos h, Nat.min_eq_left (Nat.le_of_lt h)]
  · rw [if_neg (Nat.not_lt.mpr h), Nat.min_eq_right h]

/-! ### What the main loop computes -/

theorem mainLoop_eq {c k : Nat} (hk1 : 1 ≤ k) (hk32 : k ≤ 32) :
    ∀ (rest win : List Nat) (f r : Nat),
    (∀ x ∈ win, x < 4) → win.length = k - 1 →
    f % 2 ^ (2 * (k - 1)) = encBE win → f < 2 ^ (2 * k) →
    r / 4 = encBE (rcN win) → r < 2 ^ (2 * k) →
    mainLoop c k f r rest = specTail c k win rest := by
  intro rest
  induction rest with
  | nil => intros; rfl
  | cons b rest ih =>
    intro win f r hwin hlen hf hfb hr hrb
    show mainLoop c k f r (b :: rest) = specTail c k win (b :: rest)
    unfold mainLoop specTail
    by_cases hv : 4 ≤ byteToSeq b
    · rw [if_pos hv, if_pos hv]
      exact ih win f r hwin hlen hf hfb hr hrb
    · rw [if_neg hv, if_neg hv]
      have hn : byteToSeq b < 4 := by omega
      set n := byteToSeq b with hndef
      set w : List Nat := win ++ [n] with hwdef
      have hwlen : w.length = k := by simp [hwdef]; omega
      have hwvalid : ∀ x ∈ w, x < 4 := by
        intro x hx
        rcases List.mem_append.mp hx with h | h
        · exact hwin x h
        · simp at h; omega
      have hewlt : encBE w < 2 ^ (2 * k) := by
        rw [← four_pow_eq, ← hwlen]
        exact encBE_lt w hwvalid
      have hfstep : stepF k f n = encBE w := by
        rw [stepF_eq hk32 hn]
        have hdm := Nat.div_add_mod f (2 ^ (2 * (k - 1)))
        rw [hf] at hdm
        have hkey : f * 4 + n =
            2 ^ (2 * k) * (f / 2 ^ (2 * (k - 1))) + (encBE win * 4 + n) := by
          have hpow : 2 ^ (2 * (k - 1)) * 4 = 2 ^ (2 * k) := by
            rw [show (4 : Nat) = 2 ^ 2 by norm_num, ← pow_add]
            congr 1; omega
          calc f * 4 + n = (2 ^ (2 * (k - 1)) * (f / 2 ^ (2 * (k - 1))) + encBE win) * 4 + n := by
                rw [hdm]
            _ = 2 ^ (2 * (k - 1)) * 4 * (f / 2 ^ (2 * (k - 1))) + (encBE win * 4 + n) := by ring
            _ = 2 ^ (2 * k) * (f / 2 ^ (2 * (k - 1))) + (encBE win * 4 + n) := by rw [hpow]
        rw [hkey, Nat.mul_add_mod, ← encBE_snoc]
        exact Nat.mod_eq_of_lt hewlt
      have hrcwlt : encBE (rcN w) < 2 ^ (2 * k) := by
        rw [← four_pow_eq, ← hwlen, ← rcN_length w]
        exact encBE_lt (rcN w) (rcN_lt w)
      have hrstep : stepR k r n = encBE (rcN w) := by
        rw [stepR_eq hk1 hk32 hrb hn, hr, hwdef, rcN_snoc, encBE_cons, rcN_length, hlen,
          four_pow_eq]
        ring
      rw [hfstep, hrstep]
      simp only [ite_lt_eq_min]
      -- invariants for the recursive call on the shifted window `w.drop 1`
      have hwne : w ≠ [] := by simp [hwdef]
      obtain ⟨a, t, hat⟩ := List.exists_cons_of_ne_nil hwne
      have htlen : t.length = k - 1 := by
        have := hwlen
        rw [hat] at this
        simp at this
        omega
      have htvalid : ∀ x ∈ t, x < 4 := fun x hx =>
        hwvalid x (by rw [hat]; exact List.mem_cons_of_mem _ hx)
      have htlt : encBE t < 2 ^ (2 * (k - 1)) := by
        rw [← four_pow_eq, ← htlen]
        exact encBE_lt t htvalid
      have hdrop : w.drop 1 = t := by rw [hat]; rfl
      have hf' : encBE w % 2 ^ (2 * (k - 1)) = encBE t := by
        rw [hat, encBE_cons, htlen, four_pow_eq, Nat.add_comm, Nat.add_mul_mod_self_right]
        exact Nat.mod_eq_of_lt htlt
      have hr' : encBE (rcN w) / 4 = encBE (rcN t) := by
        rw [hat, rcN_cons, encBE_snoc, mul_comm,
          Nat.mul_add_div (by norm_num : (0:Nat) < 4),
          Nat.div_eq_of_lt (by omega), Nat.add_zero]
      have hrec := ih t (encBE w) (encBE (rcN w)) htvalid htlen
        (by rw [hf']) hewlt hr' hrcwlt
      unfold windowEmit
      by_cases hth : mm_hash64 (min (encBE w) (encBE (rcN w))) < fracThreshold c
      · rw [if_pos hth, if_pos hth]
        simp only [Option.toList_some, List.singleton_append, hdrop]
        rw [hrec]
      · rw [if_neg hth, if_neg hth]
        simp only [Option.toList_none, List.nil_append, hdrop]
        rw [hrec]

/-! ### From `specTail` to the sliding-window specification -/

theorem slidingWindows_cons_eq {k : Nat} (a : α) (l : List α) :
    slidingWindows k (a :: l) =
      if l.length + 1 < k then [] else (a :: l).take k :: slidingWindows k l := rfl

theorem slidingWindows_nil_of_lt {k : Nat} (l : List α) (h : l.length < k) :
    slidingWindows k l = [] := by
  cases l with
  | nil => rfl
  | cons a t =>
    rw [slidingWindows_cons_eq, if_pos (by simpa using h)]

theorem slidingWindows_cons {k : Nat} (hk1 : 1 ≤ k) (w v : List α) (hw : w.length = k) :
    slidingWindows k (w ++ v) = w :: slidingWindows k (w.drop 1 ++ v) := by
  obtain ⟨a, t, hat⟩ := List.exists_cons_of_ne_nil
    (show w ≠ [] by intro h; rw [h] at hw; simp at hw; omega)
  subst hat
  have hk' : k = t.length + 1 := by simp only [List.length_cons] at hw; omega
  simp only [List.cons_append]
  rw [slidingWindows_cons_eq, if_neg (by simp only [List.length_append]; omega)]
  congr 1
  rw [hk', List.take_succ_cons, List.take_left]

theorem filterMap_toNuc_of_valid (l : List Nat) (h : ∀ b ∈ l, byteToSeq b < 4) :
    l.filterMap toNuc? = l.map byteToSeq := by
  induction l with
  | nil => rfl
  | cons b t ih =>
    rw [List.filterMap_cons, List.map_cons]
    have hb : byteToSeq b < 4 := h b (List.mem_cons_self b t)
    rw [show toNuc? b = some (byteToSeq b) from by unfold toNuc?; rw [if_pos hb]]
    rw [ih (fun x hx => h x (List.mem_cons_of_mem _ hx))]

theorem filterMap_toList_cons (f : α → Option β) (a : α) (l : List α) :
    (a :: l).filterMap f = (f a).toList ++ l.filterMap f := by
  rw [List.filterMap_cons]
  cases f a <;> simp

theorem specTail_eq_windows {c k : Nat} (hk1 : 1 ≤ k) :
    ∀ (rest win : List Nat), win.length = k - 1 →
    specTail c k win rest =
      (slidingWindows k (win ++ rest.filterMap toNuc?)).filterMap (windowEmit c) := by
  intro rest
  induction rest with
  | nil =>
    intro win hlen
    rw [show specTail c k win [] = [] from rfl]
    rw [List.filterMap_nil, List.append_nil,
      slidingWindows_nil_of_lt win (by omega), List.filterMap_nil]
  | cons b rest ih =>
    intro win hlen
    unfold specTail
    by_cases hv : 4 ≤ byteToSeq b
    · rw [if_pos hv, ih win hlen, filterMap_toList_cons,
        show toNuc? b = none from by unfold toNuc?; rw [if_neg (by omega)]]
      rw [Option.toList_none, List.nil_append]
    · rw [if_neg hv]
      have hn : byteToSeq b < 4 := by omega
      rw [filterMap_toList_cons,
        show toNuc? b = some (byteToSeq b) from by unfold toNuc?; rw [if_pos (by omega)]]
      rw [Option.toList_some, List.singleton_append]
      have happ : win ++ byteToSeq b :: rest.filterMap toNuc? =
          (win ++ [byteToSeq b]) ++ rest.filterMap toNuc? := by
        simp
      rw [happ, slidingWindows_cons hk1 (win ++ [byteToSeq b]) _ (by simp; omega),
        filterMap_toList_cons]
      show (windowEmit c (win ++ [byteToSeq b])).toList ++
          specTail c k (List.drop 1 (win ++ [byteToSeq b])) rest = _
      rw [ih ((win ++ [byteToSeq b]).drop 1) (by simp; omega)]

/-- Full characterisation of `extract_kmers` when the first `k-1` bytes are valid
bases: the emitted hashes are exactly the sub-threshold canonical hashes of the
width-`k` windows slid over the 2-bit codes of the *valid* bytes of the input
(an invalid byte past the initialisation phase is skipped by `continue` without
resetting the rolling window, so it is simply deleted from the stream). -/
theorem extract_kmers_spec (c k : Nat) (hk1 : 1 ≤ k) (hk32 : k ≤ 32) (s : List Nat)
    (hlen : k ≤ s.length) (hval : ∀ b ∈ s.take (k - 1), byteToSeq b < 4) :
    extract_kmers c k s = kmersSpec c k s := by
  unfold extract_kmers
  rw [if_neg (by omega)]
  have htake : (s.take (k - 1)).length = k - 1 := by
    rw [List.length_take]
    omega
  have hinit := initPhase_eq hk1 hk32 (s.take (k - 1)) [] (by simp) hval
    (by simp [htake])
  rw [show encBE ([] : List Nat) = 0 from rfl, show rcN ([] : List Nat) = [] from rfl,
    show encBE ([] : List Nat) = 0 from rfl, Nat.zero_mul] at hinit
  simp only [List.nil_append, List.length_nil, Nat.zero_add, htake] at hinit
  rw [hinit]
  set nw : List Nat := (s.take (k - 1)).map byteToSeq with hnw
  have hnwlen : nw.length = k - 1 := by rw [hnw, List.length_map, htake]
  have hnwvalid : ∀ x ∈ nw, x < 4 := by
    intro x hx
    rw [hnw] at hx
    obtain ⟨b, hb, rfl⟩ := List.mem_map.mp hx
    exact hval b hb
  have hnwlt : encBE nw < 2 ^ (2 * (k - 1)) := by
    rw [← four_pow_eq, ← hnwlen]
    exact encBE_lt nw hnwvalid
  have hrclt : encBE (rcN nw) < 2 ^ (2 * (k - 1)) := by
    rw [← four_pow_eq, ← hnwlen, ← rcN_length nw]
    exact encBE_lt (rcN nw) (rcN_lt nw)
  have hexp : k - (k - 1) = 1 := by omega
  rw [hexp, pow_one] at hinit ⊢
  have hmain := @mainLoop_eq c k hk1 hk32 (s.drop (k - 1)) nw
    (encBE nw) (encBE (rcN nw) * 4) hnwvalid hnwlen
    (Nat.mod_eq_of_lt hnwlt)
    (lt_of_lt_of_le hnwlt (Nat.pow_le_pow_right (by norm_num) (by omega)))
    (Nat.mul_div_cancel _ (by norm_num))
    (by
      rw [← four_pow_eq]
      calc encBE (rcN nw) * 4 < 4 ^ (k - 1) * 4 := by
            rw [four_pow_eq]
            omega
        _ = 4 ^ k := by rw [← pow_succ]; congr 1; omega)
  show mainLoop c k (encBE nw) (encBE (rcN nw) * 4) (List.drop (k - 1) s) = kmersSpec c k s
  rw [hmain, specTail_eq_windows hk1 (s.drop (k - 1)) nw hnwlen]
  unfold kmersSpec
  conv_rhs => rw [← List.take_append_drop (k - 1) s]
  rw [List.filterMap_append, filterMap_toNuc_of_valid _ hval]

/-! ## extract.rs: reverse complement, canonical tag sequence -/

/-- Byte-level complement used by `reverse_complement` in `src/extract.rs`
(`A`↔`T`, `C`↔`G`, every other byte unchanged). -/
def complByte (b : Nat) : Nat :=
  if b = 65 then 84
  else if b = 84 then 65
  else if b = 67 then 71
  else if b = 71 then 67
  else b

/-- `reverse_complement` of `src/extract.rs`: iterate the bytes in reverse,
pushing each complement. -/
def reverse_complement (s : List Nat) : List Nat := s.reverse.map complByte

/-- Rust slice comparison `seq <= rc` (lexicographic byte order, a proper prefix
is smaller). -/
def lexLe : List Nat → List Nat → Bool
  | [], _ => true
  | _ :: _, [] => false
  | a :: as, b :: bs => if a < b then true else if b < a then false else lexLe as bs

/-- `get_canonical_sequence` of `src/extract.rs`: the lexicographically smaller
of a sequence and its reverse complement. -/
def get_canonical_sequence (s : List Nat) : List Nat :=
  if lexLe s (reverse_complement s) then s else reverse_complement s

theorem complByte_complByte (b : Nat) : complByte (complByte b) = b := by
  unfold complByte
  repeat' split
  all_goals omega

theorem reverse_complement_reverse_complement (s : List Nat) :
    reverse_complement (reverse_complement s) = s := by
  unfold reverse_complement
  rw [List.map_reverse, List.map_map]
  have hmap : List.map (complByte ∘ complByte) s.reverse = s.reverse := by
    conv_rhs => rw [← List.map_id s.reverse]
    exact List.map_congr_left (fun b _ => complByte_complByte b)
  rw [hmap, List.reverse_reverse]

theorem lexLe_total (a b : List Nat) : lexLe a b = true ∨ lexLe b a = true := by
  induction a generalizing b with
  | nil => left; rfl
  | cons x xs ih =>
    cases b with
    | nil => right; rfl
    | cons y ys =>
      unfold lexLe
      rcases Nat.lt_trichotomy x y with h | h | h
      · left; rw [if_pos h]
      · subst h
        rw [if_neg (by omega), if_neg (by omega), if_neg (by omega), if_neg (by omega)]
        exact ih ys
      · right; rw [if_pos h]

theorem lexLe_antisymm {a b : List Nat} (h1 : lexLe a b = true)
    (h2 : lexLe b a = true) : a = b := by
  induction a generalizing b with
  | nil =>
    cases b with
    | nil => rfl
    | cons y ys => exact absurd h2 (by unfold lexLe; simp)
  | cons x xs ih =>
    cases b with
    | nil => exact absurd h1 (by unfold lexLe; simp)
    | cons y ys =>
      unfold lexLe at h1 h2
      rcases Nat.lt_trichotomy x y with h | h | h
      · rw [if_neg (by omega), if_pos h] at h2
        exact absurd h2 (by simp)
      · subst h
        rw [if_neg (by omega), if_neg (by omega)] at h1 h2
        rw [ih h1 h2]
      · rw [if_neg (by omega), if_pos h] at h1
        exact absurd h1 (by simp)

/-- Both canonical forms pick the lexicographic minimum of the same two sequences. -/
theorem get_canonical_sequence_rc (s : List Nat) :
    get_canonical_sequence s = get_canonical_sequence (reverse_complement s) := by
  unfold get_canonical_sequence
  rw [reverse_complement_reverse_complement]
  by_cases h1 : lexLe s (reverse_complement s) = true
  · rw [if_pos h1]
    by_cases h2 : lexLe (reverse_complement s) s = true
    · rw [if_pos h2]
      exact lexLe_antisymm h1 h2
    · rw [if_neg h2]
  · rw [if_neg h1]
    rcases lexLe_total s (reverse_complement s) with h | h
    · exact absurd h h1
    · rw [if_pos h]

/-! ### Canonical-hash symmetry of `extract_kmers` on a single window -/

theorem slidingWindows_self {k : Nat} (l : List α) (hk1 : 1 ≤ k) (hl : l.length = k) :
    slidingWindows k l = [l] := by
  have h := slidingWindows_cons hk1 l ([] : List α) hl
  rw [List.append_nil, List.append_nil] at h
  rw [h, slidingWindows_nil_of_lt _ (by rw [List.length_drop]; omega)]

/-- Membership in the four upper-case DNA base bytes. -/
def isACGT (b : Nat) : Prop := b = 65 ∨ b = 67 ∨ b = 71 ∨ b = 84

theorem byteToSeq_lt_of_ACGT {b : Nat} (h : isACGT b) : byteToSeq b < 4 := by
  rcases h with h | h | h | h <;> subst h <;> decide

theorem byteToSeq_complByte {b : Nat} (h : isACGT b) :
    byteToSeq (complByte b) = 3 - byteToSeq b := by
  rcases h with h | h | h | h <;> subst h <;> decide

theorem reverse_complement_ACGT {s : List Nat} (h : ∀ b ∈ s, isACGT b) :
    ∀ b ∈ reverse_complement s, isACGT b := by
  intro b hb
  unfold reverse_complement at hb
  obtain ⟨x, hx, rfl⟩ := List.mem_map.mp hb
  have := h x (List.mem_reverse.mp hx)
  rcases this with h' | h' | h' | h' <;> subst h' <;> simp [complByte, isACGT]

theorem map_byteToSeq_reverse_complement {s : List Nat} (h : ∀ b ∈ s, isACGT b) :
    (reverse_complement s).map byteToSeq = rcN (s.map byteToSeq) := by
  unfold reverse_complement rcN
  rw [List.map_map, List.map_map, List.map_reverse]
  congr 1
  exact List.map_congr_left (fun b hb => byteToSeq_complByte (h b hb))

instance (b : Nat) : Decidable (isACGT b) :=
  inferInstanceAs (Decidable (b = 65 ∨ b = 67 ∨ b = 71 ∨ b = 84))

theorem windowEmit_rcN (c : Nat) (v : List Nat) (hv : ∀ x ∈ v, x < 4) :
    windowEmit c (rcN v) = windowEmit c v := by
  unfold windowEmit
  rw [rcN_rcN v hv, Nat.min_comm]

/-- **C2.** For every DNA string `s` of length `k` over `{A,C,G,T}` (with the code's
implicit bounds `1 ≤ k ≤ 32`, outside which the Rust shift `u64::MAX >> (64-2k)`
panics), the canonical form computed by `get_canonical_sequence` is the same for
`s` and for `reverse_complement(s)`, and `extract_kmers` emits the same hashes on
`s` as on `reverse_complement(s)`. -/
theorem claim_C2 (c k : Nat) (s : List Nat) (hk1 : 1 ≤ k) (hk32 : k ≤ 32)
    (hlen : s.length = k) (hACGT : ∀ b ∈ s, isACGT b) :
    get_canonical_sequence s = get_canonical_sequence (reverse_complement s) ∧
    extract_kmers c k s = extract_kmers c k (reverse_complement s) := by
  refine ⟨get_canonical_sequence_rc s, ?_⟩
  have hval : ∀ b ∈ s, byteToSeq b < 4 := fun b hb => byteToSeq_lt_of_ACGT (hACGT b hb)
  have hrcACGT := reverse_complement_ACGT hACGT
  have hrcval : ∀ b ∈ reverse_complement s, byteToSeq b < 4 :=
    fun b hb => byteToSeq_lt_of_ACGT (hrcACGT b hb)
  have hrclen : (reverse_complement s).length = k := by
    unfold reverse_complement
    simp [hlen]
  rw [extract_kmers_spec c k hk1 hk32 s (le_of_eq hlen.symm)
      (fun b hb => hval b (List.mem_of_mem_take hb)),
    extract_kmers_spec c k hk1 hk32 _ (le_of_eq hrclen.symm)
      (fun b hb => hrcval b (List.mem_of_mem_take hb))]
  unfold kmersSpec
  rw [filterMap_toNuc_of_valid s hval, filterMap_toNuc_of_valid _ hrcval,
    slidingWindows_self _ hk1 (by simp [hlen]),
    slidingWindows_self _ hk1 (by simp [hrclen]),
    map_byteToSeq_reverse_complement hACGT,
    filterMap_toList_cons, filterMap_toList_cons, List.filterMap_nil]
  rw [windowEmit_rcN c (s.map byteToSeq) (by
    intro x hx
    obtain ⟨b, hb, rfl⟩ := List.mem_map.mp hx
    exact hval b hb)]

/-- Witness for C2 at `s = "ACGT"`, `k = 4`, `c = 1`. -/
theorem claim_C2_witness :
    (∀ b ∈ [65, 67, 71, 84], isACGT b) ∧
    get_canonical_sequence [65, 67, 71, 84] =
      get_canonical_sequence (reverse_complement [65, 67, 71, 84]) ∧
    extract_kmers 1 4 [65, 67, 71, 84] =
      extract_kmers 1 4 (reverse_complement [65, 67, 71, 84]) :=
  ⟨by decide, claim_C2 1 4 [65, 67, 71, 84] (by omega) (by omega) (by decide) (by decide)⟩

/-- **C3 (amended).** Every hash emitted by `extract_kmers` is `mm_hash64` of
min(forward, reverse-complement) of the 2-bit encoding of a window of `k` *valid*
bytes — the `k` most recent valid bytes, which need *not* be contiguous in the
input: an invalid byte at index ≥ k-1 is skipped by `continue` without resetting
the rolling window, while an invalid byte among the first `k-1` bytes aborts the
whole sequence. Under validity of the first `k-1` bytes, the output is exactly the
sliding-window specification over the valid-byte subsequence. -/
theorem claim_C3 (c k : Nat) (hk1 : 1 ≤ k) (hk32 : k ≤ 32) (s : List Nat)
    (hlen : k ≤ s.length) (hval : ∀ b ∈ s.take (k - 1), byteToSeq b < 4) :
    extract_kmers c k s = kmersSpec c k s :=
  extract_kmers_spec c k hk1 hk32 s hlen hval

/-- Witness for C3 (amended) at `s = "ACNGT"`, `k = 3`, `c = 1` (the `N` at index 2
is deleted from the window stream, not a window boundary). -/
theorem claim_C3_witness :
    (1 ≤ 3 ∧ 3 ≤ 32 ∧ 3 ≤ [65, 67, 78, 71, 84].length ∧
      (∀ b ∈ [65, 67, 78, 71, 84].take 2, byteToSeq b < 4)) ∧
    extract_kmers 1 3 [65, 67, 78, 71, 84] = kmersSpec 1 3 [65, 67, 78, 71, 84] :=
  ⟨⟨by omega, by omega, by decide, by decide⟩,
    claim_C3 1 3 (by omega) (by omega) [65, 67, 78, 71, 84] (by decide) (by decide)⟩

/-- **C3 counterexample.** On input `"AAANC"` with `k = 4`, `c = 1`, `extract_kmers`
emits the hash of the non-contiguous window `AAA·C` (the `N` is skipped without
resetting the window), but no window of 4 *contiguous* input bytes is all-valid,
so the claim as stated (every emitted hash comes from a window of `k` contiguous
valid input bytes) is false. -/
theorem claim_C3_counterexample :
    ¬ (∀ h ∈ extract_kmers 1 4 [65, 65, 65, 78, 67], ∃ i, i + 4 ≤ 5 ∧
        (∀ b ∈ (([65, 65, 65, 78, 67] : List Nat).drop i).take 4, byteToSeq b < 4) ∧
        h = mm_hash64 (min
          (encBE (((([65, 65, 65, 78, 67] : List Nat).drop i).take 4).map byteToSeq))
          (encBE (rcN (((([65, 65, 65, 78, 67] : List Nat).drop i).take 4).map
            byteToSeq))))) := by
  intro hcl
  have hmem : mm_hash64 1 ∈ extract_kmers 1 4 [65, 65, 65, 78, 67] := by decide
  obtain ⟨i, hik, hvalid, _⟩ := hcl _ hmem
  rcases Nat.lt_or_ge i 1 with hi | hi
  · have h0 : i = 0 := by omega
    subst h0
    have h78 : (78 : Nat) ∈ (([65, 65, 65, 78, 67] : List Nat).drop 0).take 4 := by decide
    exact absurd (hvalid 78 h78) (by decide)
  · have h1 : i = 1 := by omega
    subst h1
    have h78 : (78 : Nat) ∈ (([65, 65, 65, 78, 67] : List Nat).drop 1).take 4 := by decide
    exact absurd (hvalid 78 h78) (by decide)

/-! ## sketch.rs: `sketch_genome` (genome marker set with dedup and min-spacing)

The post-extraction core of `sketch_genome`: collect `(contig, pos, hash)`
triples over all contigs, sort them (Rust's stable `vec.sort()`, modelled by
`insertionSort` under the lexicographic tuple order — the claims below only use
that the sort is a permutation), mark every hash seen more than once, then accept
a non-duplicated hash iff `last_pos == 0 || last_contig != contig ||
pos - last_pos > min_spacing`, updating `(last_contig, last_pos)` on acceptance.
The `pseudotax` branch only feeds a separate tracking vector and does not affect
`genome_kmers`. -/

/-- Lexicographic order on `(contig, pos, hash)` triples (Rust tuple `Ord`). -/
def tripleLe (a b : Nat × Nat × Nat) : Prop :=
  a.1 < b.1 ∨ (a.1 = b.1 ∧ (a.2.1 < b.2.1 ∨ (a.2.1 = b.2.1 ∧ a.2.2 ≤ b.2.2)))

instance : DecidableRel tripleLe := fun a b =>
  inferInstanceAs (Decidable
    (a.1 < b.1 ∨ (a.1 = b.1 ∧ (a.2.1 < b.2.1 ∨ (a.2.1 = b.2.1 ∧ a.2.2 ≤ b.2.2)))))

/-- `vec.sort()` on the triple vector. -/
def sortTriples (l : List (Nat × Nat × Nat)) : List (Nat × Nat × Nat) :=
  l.insertionSort tripleLe

/-- First pass of `sketch_genome`: build `kmer_set` and `duplicate_set`. -/
def firstPassAux : List (Nat × Nat × Nat) → List Nat → List Nat → List Nat × List Nat
  | [], ks, ds => (ks, ds)
  | (_, _, km) :: rest, ks, ds =>
    if km ∈ ks then firstPassAux rest ks (if km ∈ ds then ds else km :: ds)
    else firstPassAux rest (km :: ks) ds

/-- `(kmer_set, duplicate_set)` after the first pass. -/
def firstPass (l : List (Nat × Nat × Nat)) : List Nat × List Nat := firstPassAux l [] []

/-- Second pass of `sketch_genome`: the accepted `(contig, pos, hash)` triples,
threading `(last_contig, last_pos)` exactly as the source does. -/
def spacingPass (dup : Nat → Bool) (min_spacing : Nat) :
    List (Nat × Nat × Nat) → Nat → Nat → List (Nat × Nat × Nat)
  | [], _, _ => []
  | (ct, p, km) :: rest, lc, lp =>
    if dup km then spacingPass dup min_spacing rest lc lp
    else if lp = 0 ∨ lc ≠ ct ∨ min_spacing < p - lp then
      (ct, p, km) :: spacingPass dup min_spacing rest ct p
    else spacingPass dup min_spacing rest lc lp

/-- All `(contig_number, pos, hash)` triples of a genome, contigs enumerated in
input order (`extract_kmers_positions` per contig). -/
def genomeTriples (c k : Nat) (contigs : List (List Nat)) : List (Nat × Nat × Nat) :=
  contigs.enum.flatMap (fun p => extract_kmers_positions c k p.1 p.2)

/-- The accepted triples of `sketch_genome` (ghost version carrying positions). -/
def sketch_genome_accepted (c k min_spacing : Nat) (contigs : List (List Nat)) :
    List (Nat × Nat × Nat) :=
  let vec := sortTriples (genomeTriples c k contigs)
  spacingPass (fun km => decide (km ∈ (firstPass vec).2)) min_spacing vec 0 0

/-- `genome_kmers` of the `GenomeSketch` returned by `sketch_genome`. -/
def sketch_genome (c k min_spacing : Nat) (contigs : List (List Nat)) : List Nat :=
  (sketch_genome_accepted c k min_spacing contigs).map (fun t => t.2.2)

/-! ### First-pass lemmas: `duplicate_set` catches every repeated hash -/

theorem firstPassAux_mono {km : Nat} :
    ∀ (l : List (Nat × Nat × Nat)) (ks ds : List Nat), km ∈ ds →
    km ∈ (firstPassAux l ks ds).2 := by
  intro l
  induction l with
  | nil => intro ks ds h; exact h
  | cons t rest ih =>
    intro ks ds h
    obtain ⟨ct, p, x⟩ := t
    unfold firstPassAux
    by_cases hks : x ∈ ks
    · rw [if_pos hks]
      apply ih
      by_cases hds : x ∈ ds
      · rw [if_pos hds]; exact h
      · rw [if_neg hds]; exact List.mem_cons_of_mem _ h
    · rw [if_neg hks]
      exact ih _ _ h

theorem firstPassAux_seen {km : Nat} :
    ∀ (l : List (Nat × Nat × Nat)) (ks ds : List Nat), km ∈ ks →
    km ∈ l.map (fun t => t.2.2) →
    km ∈ (firstPassAux l ks ds).2 := by
  intro l
  induction l with
  | nil => intro ks ds _ h; simp at h
  | cons t rest ih =>
    intro ks ds hks hmem
    obtain ⟨ct, p, x⟩ := t
    unfold firstPassAux
    by_cases heq : km = x
    · subst heq
      rw [if_pos hks]
      apply firstPassAux_mono
      by_cases hds : km ∈ ds
      · rw [if_pos hds]; exact hds
      · rw [if_neg hds]; exact List.mem_cons_self km ds
    · have hrest : km ∈ rest.map (fun t => t.2.2) := by
        simp only [List.map_cons, List.mem_cons] at hmem
        rcases hmem with h | h
        · exact absurd h heq
        · exact h
      by_cases hx : x ∈ ks
      · rw [if_pos hx]
        apply ih _ _ hks hrest
      · rw [if_neg hx]
        exact ih _ _ (List.mem_cons_of_mem _ hks) hrest

theorem firstPassAux_dup {km : Nat} :
    ∀ (l : List (Nat × Nat × Nat)) (ks ds : List Nat),
    2 ≤ (l.map (fun t => t.2.2)).count km →
    km ∈ (firstPassAux l ks ds).2 := by
  intro l
  induction l with
  | nil => intro ks ds h; simp at h
  | cons t rest ih =>
    intro ks ds hcount
    obtain ⟨ct, p, x⟩ := t
    unfold firstPassAux
    by_cases heq : km = x
    · subst heq
      have hrest : km ∈ rest.map (fun t => t.2.2) := by
        simp only [List.map_cons, List.count_cons_self] at hcount
        exact List.count_pos_iff.mp (by omega)
      by_cases hx : km ∈ ks
      · rw [if_pos hx]
        apply firstPassAux_seen _ _ _ hx hrest
      · rw [if_neg hx]
        exact firstPassAux_seen _ _ _ (List.mem_cons_self km ks) hrest
    · have hrest : 2 ≤ (rest.map (fun t => t.2.2)).count km := by
        simp only [List.map_cons] at hcount
        rwa [List.count_cons_of_ne heq] at hcount
      by_cases hx : x ∈ ks
      · rw [if_pos hx]; exact ih _ _ hrest
      · rw [if_neg hx]; exact ih _ _ hrest

/-! ### Second-pass lemmas -/

theorem spacingPass_sublist (dup : Nat → Bool) (ms : Nat) :
    ∀ (l : List (Nat × Nat × Nat)) (lc lp : Nat),
    (spacingPass dup ms l lc lp).Sublist l := by
  intro l
  induction l with
  | nil => intro lc lp; exact List.Sublist.refl []
  | cons t rest ih =>
    intro lc lp
    obtain ⟨ct, p, km⟩ := t
    unfold spacingPass
    by_cases hdup : dup km = true
    · rw [if_pos hdup]
      exact List.Sublist.cons _ (ih lc lp)
    · rw [if_neg hdup]
      by_cases hc : lp = 0 ∨ lc ≠ ct ∨ ms < p - lp
      · rw [if_pos hc]
        exact List.Sublist.cons₂ _ (ih ct p)
      · rw [if_neg hc]
        exact List.Sublist.cons _ (ih lc lp)

theorem spacingPass_not_dup (dup : Nat → Bool) (ms : Nat) :
    ∀ (l : List (Nat × Nat × Nat)) (lc lp : Nat),
    ∀ t ∈ spacingPass dup ms l lc lp, dup t.2.2 = false := by
  intro l
  induction l with
  | nil => intro lc lp t ht; simp [spacingPass] at ht
  | cons hd rest ih =>
    intro lc lp t ht
    obtain ⟨ct, p, km⟩ := hd
    unfold spacingPass at ht
    by_cases hdup : dup km = true
    · rw [if_pos hdup] at ht
      exact ih lc lp t ht
    · rw [if_neg hdup] at ht
      by_cases hc : lp = 0 ∨ lc ≠ ct ∨ ms < p - lp
      · rw [if_pos hc] at ht
        rcases List.mem_cons.mp ht with h | h
        · subst h
          exact Bool.eq_false_iff.mpr hdup
        · exact ih ct p t h
      · rw [if_neg hc] at ht
        exact ih lc lp t ht

theorem spacingPass_chain (dup : Nat → Bool) (ms : Nat) :
    ∀ (l : List (Nat × Nat × Nat)) (lc lp : Nat),
    (∀ t ∈ l, 0 < t.2.1) →
    List.Chain' (fun a b => a.1 = b.1 → a.2.1 + ms < b.2.1) (spacingPass dup ms l lc lp) ∧
    (∀ hd, (spacingPass dup ms l lc lp).head? = some hd →
      lp ≠ 0 → lc = hd.1 → lp + ms < hd.2.1) := by
  intro l
  induction l with
  | nil => intro lc lp _; exact ⟨List.chain'_nil, by intro hd h; simp [spacingPass] at h⟩
  | cons t rest ih =>
    intro lc lp hpos
    obtain ⟨ct, p, km⟩ := t
    have hprest : ∀ t ∈ rest, 0 < t.2.1 := fun t ht => hpos t (List.mem_cons_of_mem _ ht)
    have hp : 0 < p := by simpa using hpos (ct, p, km) (List.mem_cons_self _ _)
    unfold spacingPass
    by_cases hdup : dup km = true
    · rw [if_pos hdup]
      exact ih lc lp hprest
    · rw [if_neg hdup]
      by_cases hc : lp = 0 ∨ lc ≠ ct ∨ ms < p - lp
      · rw [if_pos hc]
        obtain ⟨hchain, hhead⟩ := ih ct p hprest
        constructor
        · rw [List.chain'_cons']
          refine ⟨?_, hchain⟩
          intro b hb
          intro hcteq
          exact hhead b hb (by omega) hcteq
        · intro hd hhd
          simp only [List.head?_cons, Option.some_inj] at hhd
          subst hhd
          intro hlp hlc
          show lp + ms < p
          rcases hc with h | h | h
          · exact absurd h hlp
          · exact absurd hlc h
          · omega
      · rw [if_neg hc]
        exact ih lc lp hprest

/-! ### Positions produced by `extract_kmers_positions` are at least `k-1` -/

theorem mainLoopPos_bounds (c k contig : Nat) :
    ∀ (l : List Nat) (i f r : Nat), ∀ t ∈ mainLoopPos c k contig i f r l,
    i ≤ t.2.1 ∧ t.1 = contig := by
  intro l
  induction l with
  | nil => intro i f r t ht; simp [mainLoopPos] at ht
  | cons b rest ih =>
    intro i f r t ht
    unfold mainLoopPos at ht
    by_cases hv : 4 ≤ byteToSeq b
    · rw [if_pos hv] at ht
      have := ih (i + 1) f r t ht
      exact ⟨by omega, this.2⟩
    · rw [if_neg hv] at ht
      simp only [ite_lt_eq_min] at ht
      split at ht
      · rcases List.mem_cons.mp ht with h | h
        · subst h; exact ⟨le_refl _, rfl⟩
        · have := ih (i + 1) _ _ t h
          exact ⟨by omega, this.2⟩
      · have := ih (i + 1) _ _ t ht
        exact ⟨by omega, this.2⟩

theorem extract_kmers_positions_pos {c k contig : Nat} (hk : 2 ≤ k) (s : List Nat) :
    ∀ t ∈ extract_kmers_positions c k contig s, 0 < t.2.1 := by
  intro t ht
  unfold extract_kmers_positions at ht
  split at ht
  · simp at ht
  · split at ht
    · simp at ht
    · have := (mainLoopPos_bounds c k contig _ (k - 1) _ _ t ht).1
      omega

theorem genomeTriples_pos {c k : Nat} (hk : 2 ≤ k) (contigs : List (List Nat)) :
    ∀ t ∈ genomeTriples c k contigs, 0 < t.2.1 := by
  intro t ht
  unfold genomeTriples at ht
  obtain ⟨p, _, hmem⟩ := List.mem_flatMap.mp ht
  exact extract_kmers_positions_pos hk p.2 t hmem

/-- **C5 (amended).** For `k ≥ 2` (so that every marker position `i ≥ k-1` is
positive; for `k = 1` a marker at position 0 re-arms the `last_pos == 0` sentinel
and defeats the spacing rule, see the counterexample), `sketch_genome` satisfies:
`genome_kmers` is duplicate-free, any hash occurring more than once among the
extracted triples appears nowhere in `genome_kmers`, and consecutively accepted
markers on the same contig are more than `min_spacing` apart. -/
theorem claim_C5 (c k ms : Nat) (contigs : List (List Nat)) (hk : 2 ≤ k) :
    (sketch_genome c k ms contigs).Nodup ∧
    (∀ km, 2 ≤ ((genomeTriples c k contigs).map (fun t => t.2.2)).count km →
      km ∉ sketch_genome c k ms contigs) ∧
    List.Chain' (fun a b => a.1 = b.1 → a.2.1 + ms < b.2.1)
      (sketch_genome_accepted c k ms contigs) := by
  have hperm : List.Perm (sortTriples (genomeTriples c k contigs))
      (genomeTriples c k contigs) :=
    List.perm_insertionSort tripleLe _
  set vec := sortTriples (genomeTriples c k contigs) with hvec
  set dupf : Nat → Bool := fun km => decide (km ∈ (firstPass vec).2) with hdupf
  have hacc : sketch_genome_accepted c k ms contigs = spacingPass dupf ms vec 0 0 := rfl
  have hsg : sketch_genome c k ms contigs =
      (spacingPass dupf ms vec 0 0).map (fun t => t.2.2) := rfl
  have hcount : ∀ km, ((genomeTriples c k contigs).map (fun t => t.2.2)).count km =
      (vec.map (fun t => t.2.2)).count km :=
    fun km => ((hperm.map (fun t => t.2.2)).count_eq km).symm
  have hnotin : ∀ km, 2 ≤ (vec.map (fun t => t.2.2)).count km →
      km ∉ (spacingPass dupf ms vec 0 0).map (fun t => t.2.2) := by
    intro km h2 hmem
    obtain ⟨t, ht, rfl⟩ := List.mem_map.mp hmem
    have hdup : dupf t.2.2 = false := spacingPass_not_dup dupf ms vec 0 0 t ht
    have hds : t.2.2 ∈ (firstPass vec).2 := firstPassAux_dup vec [] [] h2
    rw [hdupf] at hdup
    simp only [decide_eq_false_iff_not] at hdup
    exact hdup hds
  refine ⟨?_, ?_, ?_⟩
  · rw [hsg, List.nodup_iff_count_le_one]
    intro a
    have hsub : ((spacingPass dupf ms vec 0 0).map (fun t => t.2.2)).Sublist
        (vec.map (fun t => t.2.2)) :=
      (spacingPass_sublist dupf ms vec 0 0).map _
    have hle := hsub.count_le a
    by_cases h2 : 2 ≤ (vec.map (fun t => t.2.2)).count a
    · have := hnotin a h2
      rw [List.count_eq_zero.mpr this]
      omega
    · omega
  · intro km h2
    rw [hsg]
    exact hnotin km (by rw [← hcount]; exact h2)
  · rw [hacc]
    exact (spacingPass_chain dupf ms vec 0 0
      (fun t ht => genomeTriples_pos hk contigs t (hperm.mem_iff.mp ht))).1

/-- Witness for C5 at one contig `"ACGTACGT"`, `k = 4`, `c = 1`, `min_spacing = 2`
(the duplicated `ACGT` k-mer is dropped; of the remaining markers at positions
4, 5, 6 only position 4 is accepted). -/
theorem claim_C5_witness :
    2 ≤ 4 ∧
    (sketch_genome 1 4 2 [[65, 67, 71, 84, 65, 67, 71, 84]]).Nodup ∧
    (∀ km, 2 ≤ ((genomeTriples 1 4 [[65, 67, 71, 84, 65, 67, 71, 84]]).map
        (fun t => t.2.2)).count km →
      km ∉ sketch_genome 1 4 2 [[65, 67, 71, 84, 65, 67, 71, 84]]) ∧
    List.Chain' (fun a b => a.1 = b.1 → a.2.1 + 2 < b.2.1)
      (sketch_genome_accepted 1 4 2 [[65, 67, 71, 84, 65, 67, 71, 84]]) :=
  ⟨by omega, claim_C5 1 4 2 [[65, 67, 71, 84, 65, 67, 71, 84]] (by omega)⟩

/-- **C5 counterexample.** With `k = 1` (allowed by the CLI, which only defaults
`--k-size` to 31 without a lower bound) the contig `"AC"` yields markers at
positions 0 and 1; the marker at position 0 leaves `last_pos == 0`, so the next
marker is accepted regardless of spacing: with `min_spacing = 5` two consecutive
accepted markers on the same contig differ by 1. -/
theorem claim_C5_counterexample :
    ¬ List.Chain' (fun a b => a.1 = b.1 → a.2.1 + 5 < b.2.1)
      (sketch_genome_accepted 1 1 5 [[65, 67]]) := by
  intro h
  have hacc : sketch_genome_accepted 1 1 5 [[65, 67]] =
      [(0, 0, mm_hash64 0), (0, 1, mm_hash64 1)] := by decide
  rw [hacc, List.chain'_cons] at h
  have h2 : (0 : Nat) + 5 < 1 := h.1 rfl
  omega

/-! ## sketch.rs: read sketching with pair-aware deduplication (`dup_removal_exact`,
`pair_kmer_single`, `sketch_sequences_needle`)

`FxHashMap<Kmer, u32>` is modelled as an association list with unique keys
(`entry().or_insert(0)` appends a fresh `(km, 0)` entry), `FxHashSet` as a list. -/

/-- `MAX_DEDUP_COUNT` of `src/sketch.rs`. -/
def MAX_DEDUP_COUNT : Nat := 10000

/-- Map lookup (`kmer_counts.get(km)`). -/
def mapFind? : List (Nat × Nat) → Nat → Option Nat
  | [], _ => none
  | p :: rest, km => if p.1 = km then some p.2 else mapFind? rest km

/-- In-place update of the entry for `km` (the `*c += 1` write-back). -/
def mapSet (m : List (Nat × Nat)) (km v : Nat) : List (Nat × Nat) :=
  m.map (fun p => if p.1 = km then (p.1, v) else p)

/-- `kmer_counts.entry(*km).or_insert(0)`: make the entry present (count 0). -/
def or_insert_zero (m : List (Nat × Nat)) (km : Nat) : List (Nat × Nat) :=
  if (mapFind? m km).isSome then m else m ++ [(km, 0)]

/-- The unconditional `*c += 1` path on the or-inserted map. -/
def bumpCount (m : List (Nat × Nat)) (km : Nat) : List (Nat × Nat) :=
  mapSet (or_insert_zero m km) km (((mapFind? (or_insert_zero m km) km).getD 0) + 1)

/-- State threaded through `dup_removal_exact`: the count map, the
`kmer_to_pair_set`, and `num_dup_removed`. -/
structure DedupState where
  kmer_counts : List (Nat × Nat)
  kmer_to_pair_set : List (Nat × (Nat × Nat))
  num_dup_removed : Nat

/-- `dup_removal_exact` of `src/sketch.rs`. `entry(*km).or_insert(0)` first makes
the entry present with count 0; the pair-set insertions happen before the early
`return`; the count is incremented unless a duplicate pair was seen
(`no_dedup`, a missing `kmer_pair`, or a count at or above the threshold all
skip the duplicate check and increment unconditionally). -/
def dup_removal_exact (st : DedupState) (km : Nat)
    (kmer_pair : Option ((Nat × Nat) × (Nat × Nat))) (no_dedup : Bool)
    (threshold : Option Nat) : DedupState :=
  let m0 := or_insert_zero st.kmer_counts km
  let c := (mapFind? m0 km).getD 0
  let c_threshold := match threshold with
    | some t => t
    | none => 2 ^ 32 - 1
  if !no_dedup && decide (c < c_threshold) then
    match kmer_pair with
    | some pairs =>
      let mem0 := st.kmer_to_pair_set.contains (km, pairs.1)
      let ret0 := mem0 && decide (0 < c)
      let set1 := if mem0 then st.kmer_to_pair_set else (km, pairs.1) :: st.kmer_to_pair_set
      let mem1 := set1.contains (km, pairs.2)
      let ret1 := ret0 || (mem1 && decide (0 < c))
      let set2 := if mem1 then set1 else (km, pairs.2) :: set1
      if ret1 then
        { kmer_counts := m0, kmer_to_pair_set := set2,
          num_dup_removed := st.num_dup_removed + 1 }
      else
        { kmer_counts := mapSet m0 km (c + 1), kmer_to_pair_set := set2,
          num_dup_removed := st.num_dup_removed }
    | none => { st with kmer_counts := mapSet m0 km (c + 1) }
  else { st with kmer_counts := mapSet m0 km (c + 1) }

/-- `pair_kmer_single` of `src/sketch.rs` (read fingerprint from interleaved 2-bit
slices of the read's two halves; `Marker = u32`, so `k = 16` and reads shorter
than `4*16 + 2 = 66` bytes yield no fingerprint). -/
def pair_kmer_single (s1 : List Nat) : Option ((Nat × Nat) × (Nat × Nat)) :=
  let k := 16
  if s1.length < 4 * k + 2 then none
  else
    let halfway := s1.length / 2
    let r := (List.range k).foldl
      (fun (acc : Nat × Nat × Nat × Nat) (i : Nat) =>
        let n1 := byteToSeq (s1.getD (2 * i) 0)
        let n2 := byteToSeq (s1.getD (2 * i + halfway) 0)
        let n3 := byteToSeq (s1.getD (1 + 2 * i) 0)
        let n4 := byteToSeq (s1.getD (1 + 2 * i + halfway) 0)
        (((acc.1 <<< 2) % 2 ^ 32) ||| n1, ((acc.2.1 <<< 2) % 2 ^ 32) ||| n2,
          ((acc.2.2.1 <<< 2) % 2 ^ 32) ||| n3, ((acc.2.2.2 <<< 2) % 2 ^ 32) ||| n4))
      (0, 0, 0, 0)
    some ((r.1, r.2.1), (r.2.2.1, r.2.2.2))

/-- One iteration of the record loop of `sketch_sequences_needle`: reads longer
than 400 bases get no fingerprint, each extracted k-mer goes through
`dup_removal_exact` with threshold `Some(MAX_DEDUP_COUNT)`. -/
def sketch_read_step (c k : Nat) (no_dedup : Bool) (st : DedupState)
    (seq : List Nat) : DedupState :=
  let kmer_pair := if 400 < seq.length then none else pair_kmer_single seq
  (extract_kmers c k seq).foldl
    (fun s km => dup_removal_exact s km kmer_pair no_dedup (some MAX_DEDUP_COUNT)) st

/-- The `kmer_counts`-building core of `sketch_sequences_needle` of
`src/sketch.rs` (the resulting `SequencesSketch.kmer_counts`). -/
def sketch_sequences_needle (c k : Nat) (no_dedup : Bool)
    (reads : List (List Nat)) : DedupState :=
  reads.foldl (sketch_read_step c k no_dedup) ⟨[], [], 0⟩

theorem mapFind?_mapSet (m : List (Nat × Nat)) (km v : Nat)
    (h : (mapFind? m km).isSome) : mapFind? (mapSet m km v) km = some v := by
  induction m with
  | nil => simp [mapFind?] at h
  | cons p rest ih =>
    unfold mapSet at ih ⊢
    rw [List.map_cons]
    by_cases hp : p.1 = km
    · rw [if_pos hp]
      unfold mapFind?
      rw [if_pos hp]
    · rw [if_neg hp]
      unfold mapFind? at h ⊢
      rw [if_neg hp] at h ⊢
      exact ih h

/-- With no fingerprint the duplicate check is unreachable: the count is always
incremented. -/
theorem dup_removal_exact_none (st : DedupState) (km : Nat) (nd : Bool)
    (thr : Option Nat) :
    dup_removal_exact st km none nd thr =
      { st with kmer_counts := bumpCount st.kmer_counts km } := by
  unfold dup_removal_exact bumpCount
  dsimp only
  split <;> rfl

/-- **C6 (amended).** `MAX_DEDUP_COUNT` does not saturate the counts: once a
k-mer's count has reached `MAX_DEDUP_COUNT`, the duplicate check is skipped and
every further observation still increments the count by one. -/
theorem claim_C6 (st : DedupState) (km cnt : Nat)
    (pair : Option ((Nat × Nat) × (Nat × Nat))) (nd : Bool)
    (h : mapFind? st.kmer_counts km = some cnt) (hge : MAX_DEDUP_COUNT ≤ cnt) :
    mapFind? ((dup_removal_exact st km pair nd (some MAX_DEDUP_COUNT)).kmer_counts) km =
      some (cnt + 1) := by
  have hsome : (mapFind? st.kmer_counts km).isSome = true := by rw [h]; rfl
  have hins : or_insert_zero st.kmer_counts km = st.kmer_counts := by
    unfold or_insert_zero
    rw [if_pos hsome]
  unfold MAX_DEDUP_COUNT at hge
  unfold dup_removal_exact MAX_DEDUP_COUNT
  rw [hins]
  simp only [h, Option.getD_some]
  have hdec : decide (cnt < 10000) = false := decide_eq_false (by omega)
  rw [hdec, Bool.and_false, if_neg (by simp)]
  exact mapFind?_mapSet st.kmer_counts km (cnt + 1) (by rw [h]; rfl)

/-- Witness for C6 (amended): a count already at 10000 is pushed to 10001. -/
theorem claim_C6_witness :
    mapFind? (DedupState.mk [(5, 10000)] [] 0).kmer_counts 5 = some 10000 ∧
    MAX_DEDUP_COUNT ≤ 10000 ∧
    mapFind? ((dup_removal_exact (DedupState.mk [(5, 10000)] [] 0) 5 none false
      (some MAX_DEDUP_COUNT)).kmer_counts) 5 = some 10001 :=
  ⟨rfl, by decide, claim_C6 (DedupState.mk [(5, 10000)] [] 0) 5 10000 none false rfl
    (by decide)⟩

theorem bumpCount_singleton (h m : Nat) : bumpCount [(h, m)] h = [(h, m + 1)] := by
  unfold bumpCount or_insert_zero
  simp [mapSet, mapFind?]

theorem bumpCount_nil (h : Nat) : bumpCount [] h = [(h, 1)] := by
  unfold bumpCount or_insert_zero mapFind?
  simp [mapSet, mapFind?]

theorem sketch_read_step_AAAA (m d : Nat) :
    sketch_read_step 1 4 false (DedupState.mk [(mm_hash64 0, m)] [] d)
      [65, 65, 65, 65] = DedupState.mk [(mm_hash64 0, m + 1)] [] d := by
  unfold sketch_read_step
  rw [show extract_kmers 1 4 [65, 65, 65, 65] = [mm_hash64 0] from by decide]
  rw [if_neg (by decide), show pair_kmer_single [65, 65, 65, 65] = none from rfl]
  rw [List.foldl_cons, List.foldl_nil, dup_removal_exact_none, bumpCount_singleton]

theorem sketch_fold_AAAA (n : Nat) : ∀ (m d : Nat),
    (List.replicate n [65, 65, 65, 65]).foldl (sketch_read_step 1 4 false)
      (DedupState.mk [(mm_hash64 0, m)] [] d) =
      DedupState.mk [(mm_hash64 0, m + n)] [] d := by
  induction n with
  | zero => intro m d; rfl
  | succ n ih =>
    intro m d
    rw [List.replicate_succ, List.foldl_cons, sketch_read_step_AAAA, ih,
      show m + 1 + n = m + (n + 1) from by omega]

/-- **C6 counterexample.** Feeding 10001 copies of the 4-base read `"AAAA"`
(`c = 1`, `k = 4`; the read is far below the 66-byte fingerprint minimum, so
deduplication never engages) leaves the single k-mer with count 10001 — strictly
above `MAX_DEDUP_COUNT` — in `SequencesSketch.kmer_counts`. -/
theorem claim_C6_counterexample :
    mapFind? ((sketch_sequences_needle 1 4 false
      (List.replicate 10001 [65, 65, 65, 65])).kmer_counts) (mm_hash64 0) =
      some 10001 ∧
    MAX_DEDUP_COUNT < 10001 := by
  constructor
  · unfold sketch_sequences_needle
    rw [List.replicate_succ, List.foldl_cons]
    have hstep0 : sketch_read_step 1 4 false (DedupState.mk [] [] 0) [65, 65, 65, 65] =
        DedupState.mk [(mm_hash64 0, 1)] [] 0 := by
      unfold sketch_read_step
      rw [show extract_kmers 1 4 [65, 65, 65, 65] = [mm_hash64 0] from by decide]
      rw [if_neg (by decide), show pair_kmer_single [65, 65, 65, 65] = none from rfl]
      rw [List.foldl_cons, List.foldl_nil, dup_removal_exact_none, bumpCount_nil]
    rw [hstep0, sketch_fold_AAAA 10000 1 0]
    unfold mapFind?
    rw [if_pos rfl]
  · decide

/-!
## contain.rs: query statistics

`QueryResult` (contain.rs:101-119) with `f64` modeled as `ℝ`, `usize` as `ℕ`,
and `format!("{}/{}", a, b)` as `Nat.repr a ++ "/" ++ Nat.repr b`.
-/

structure QueryResult where
  sample_file : String
  genome_file : String
  adjusted_ani : ℝ
  eff_cov : ℝ
  ani_percentile : ℝ × ℝ
  eff_lambda : ℝ
  lambda_percentile : ℝ × ℝ
  median_cov : ℝ
  mean_cov_geq1 : ℝ
  containment_ind : String
  naive_ani : ℝ
  contig_name : String
  ref_tags : Nat
  shared_tags : Nat
  query_tags : Nat
  taxonomic_abundance : ℝ
  sequence_abundance : ℝ

/-- contain.rs:501 `const MIN_COVERAGE: f64 = 0.001` -/
noncomputable def MIN_COVERAGE : ℝ := 1 / 1000

/-- contain.rs:502 `const MIN_ANI: f64 = 90.0` -/
noncomputable def MIN_ANI : ℝ := 90

/-- contain.rs:503 `const MIN_SHARED_TAGS: usize = 10` -/
def MIN_SHARED_TAGS : Nat := 10

/-- contain.rs:504 `const K: f64 = 31.0` -/
noncomputable def K : ℝ := 31

/-- contain.rs:505 `const LAMBDA_THRESHOLD: f64 = 0.05` -/
noncomputable def LAMBDA_THRESHOLD : ℝ := 1 / 20

/-- contain.rs:506 `const MIN_TAGS_FOR_GENOME: usize = 50` -/
def MIN_TAGS_FOR_GENOME : Nat := 50

/-- contain.rs:707-798 `calculate_statistics`.  `f64::powf` is `Real.rpow`
(`^` with a real exponent); `.min`/`.max` are `min`/`max`. -/
noncomputable def calculate_statistics (shared_tags query_tags total_ref_tags : Nat) :
    QueryResult :=
  if query_tags = 0 ∨ total_ref_tags = 0 then
    { sample_file := "", genome_file := "", contig_name := "", adjusted_ani := 0,
      eff_cov := 0, ani_percentile := (0, 0), eff_lambda := 0,
      lambda_percentile := (0, 0), median_cov := 0, mean_cov_geq1 := 0,
      containment_ind := Nat.repr shared_tags ++ "/" ++ Nat.repr total_ref_tags,
      naive_ani := 0, ref_tags := total_ref_tags, shared_tags := 0, query_tags := 0,
      taxonomic_abundance := 0, sequence_abundance := 0 }
  else
    let shared_tags_f64 : ℝ := shared_tags
    let total_ref_tags_f64 : ℝ := total_ref_tags
    let containment_ratio : ℝ := shared_tags_f64 / total_ref_tags_f64
    let anis : ℝ × ℝ :=
      if MIN_SHARED_TAGS ≤ shared_tags then
        let naive : ℝ := containment_ratio ^ ((1 : ℝ) / K) * 100
        let coverage_factor : ℝ :=
          if containment_ratio < 1 / 10 then 1 + (1 / 10 - containment_ratio) * (1 / 2)
          else 1
        (naive, min (naive * coverage_factor) 100)
      else
        let base_ani : ℝ := shared_tags_f64 / (MIN_SHARED_TAGS : ℝ) * 80
        (base_ani, base_ani)
    let eff_cov := containment_ratio
    let eff_lambda := if eff_cov < LAMBDA_THRESHOLD then eff_cov * (12 / 10) else eff_cov
    let base_uncertainty : ℝ := 1
    let coverage_uncertainty := (1 - eff_cov) * (15 / 10)
    let total_uncertainty := base_uncertainty + coverage_uncertainty
    let ani_low := max (anis.2 - total_uncertainty) 0
    let ani_high := min (anis.2 + total_uncertainty) 100
    let lambda_uncertainty := 2 / 100 + (1 - eff_lambda) * (4 / 100)
    let lambda_low := max (eff_lambda - lambda_uncertainty) 0
    let lambda_high := min (eff_lambda + lambda_uncertainty) 1
    { sample_file := "", genome_file := "", contig_name := "", adjusted_ani := anis.2,
      eff_cov := eff_cov, ani_percentile := (ani_low, ani_high),
      eff_lambda := eff_lambda, lambda_percentile := (lambda_low, lambda_high),
      median_cov := 1, mean_cov_geq1 := 1,
      containment_ind := Nat.repr shared_tags ++ "/" ++ Nat.repr total_ref_tags,
      naive_ani := anis.1, ref_tags := total_ref_tags, shared_tags := shared_tags,
      query_tags := query_tags, taxonomic_abundance := 0, sequence_abundance := 0 }

/-- contain.rs:800-826 `filter_results`, rendered as the disjunction of its
early-return structure: `false` when `shared_tags == 0`, `true` when
`shared_tags > 0`, then the coverage and ANI checks (which follow the two
exhaustive shared-tag tests and are therefore unreachable in the source). -/
def filter_results (result : QueryResult) (min_ani : Option ℝ) : Prop :=
  ¬(result.shared_tags = 0) ∧
    (0 < result.shared_tags ∨
      (¬(result.eff_cov < MIN_COVERAGE) ∧
        match min_ani with
        | some m => ¬(result.adjusted_ani < m)
        | none => ¬(result.adjusted_ani < MIN_ANI)))

/-- extract.rs:359-366 `SyldbEntry` (`Hash` = `u64` as `ℕ`). -/
structure SyldbEntry where
  sequence_id : String
  tags : List Nat
  positions : List Nat
  genome_source : String
  tag_uniqueness : Option (List Bool)

/-- extract.rs:369-374 `SylspEntry`. -/
structure SylspEntry where
  sequence_id : String
  tag : Nat
  quality : Option String
  sample_source : String

/-- contain.rs:1006-1051, body of the per-`db_entry` closure of
`query_single_file`: `shared_tags` counts reference tags present in the sample
tag set, `calculate_statistics` is called, identification fields are
overwritten, and the three coverage fields are overwritten when
`shared_tags > 0` (rendered per-field so that the untouched fields stay
definitionally equal to the `calculate_statistics` output). -/
noncomputable def query_pair_result (sample_tags : List Nat) (total_sample_tags : Nat)
    (db_path sample_source : String) (db_entry : SyldbEntry) : QueryResult :=
  let shared_tags := db_entry.tags.countP (fun tag => sample_tags.contains tag)
  let total_ref_tags := db_entry.tags.length
  let result := calculate_statistics shared_tags total_sample_tags total_ref_tags
  { result with
    sample_file := sample_source
    genome_file := db_path
    contig_name := db_entry.sequence_id
    shared_tags := shared_tags
    query_tags := total_sample_tags
    ref_tags := total_ref_tags
    mean_cov_geq1 := if 0 < shared_tags then 1 else result.mean_cov_geq1
    eff_cov := if 0 < shared_tags then (shared_tags : ℝ) / (total_ref_tags : ℝ)
               else result.eff_cov
    median_cov := if 0 < shared_tags then 1 else result.median_cov }

open Classical in
/-- contain.rs:995-1053, one sample group of `query_single_file`: every
database entry is scored against the group's tag set and kept exactly when
`filter_results` (with `Some(min_ani)`) accepts the result. -/
noncomputable def query_group_results (sample_entries : List SylspEntry)
    (db_entries : List SyldbEntry) (db_path sample_source : String) (min_ani : ℝ) :
    List QueryResult :=
  let sample_tags := sample_entries.map (fun e => e.tag)
  let total_sample_tags := sample_entries.length
  db_entries.filterMap (fun db_entry =>
    let result := query_pair_result sample_tags total_sample_tags db_path
      sample_source db_entry
    if filter_results result (some min_ani) then some result else none)

theorem calculate_statistics_naive_ani_lt {s q t : Nat} (hq : ¬(q = 0 ∨ t = 0))
    (hs : ¬ MIN_SHARED_TAGS ≤ s) :
    (calculate_statistics s q t).naive_ani = (s : ℝ) / (MIN_SHARED_TAGS : ℝ) * 80 := by
  unfold calculate_statistics
  rw [if_neg hq]
  dsimp only
  rw [if_neg hs]

theorem calculate_statistics_adjusted_ani_lt {s q t : Nat} (hq : ¬(q = 0 ∨ t = 0))
    (hs : ¬ MIN_SHARED_TAGS ≤ s) :
    (calculate_statistics s q t).adjusted_ani = (s : ℝ) / (MIN_SHARED_TAGS : ℝ) * 80 := by
  unfold calculate_statistics
  rw [if_neg hq]
  dsimp only
  rw [if_neg hs]

theorem calculate_statistics_naive_ani_ge {s q t : Nat} (hq : ¬(q = 0 ∨ t = 0))
    (hs : MIN_SHARED_TAGS ≤ s) :
    (calculate_statistics s q t).naive_ani = ((s : ℝ) / (t : ℝ)) ^ ((1 : ℝ) / K) * 100 := by
  unfold calculate_statistics
  rw [if_neg hq]
  dsimp only
  rw [if_pos hs]

/-- **C10.** `calculate_statistics` is total at its zero boundary: whenever
`query_tags = 0` or `total_ref_tags = 0` it takes the early-return branch (no
division is evaluated), producing `naive_ani = adjusted_ani = eff_cov = 0` and
the containment string `"shared_tags/total_ref_tags"`. -/
theorem claim_C10 (shared_tags query_tags total_ref_tags : Nat)
    (h : query_tags = 0 ∨ total_ref_tags = 0) :
    (calculate_statistics shared_tags query_tags total_ref_tags).naive_ani = 0 ∧
    (calculate_statistics shared_tags query_tags total_ref_tags).adjusted_ani = 0 ∧
    (calculate_statistics shared_tags query_tags total_ref_tags).eff_cov = 0 ∧
    (calculate_statistics shared_tags query_tags total_ref_tags).containment_ind =
      Nat.repr shared_tags ++ "/" ++ Nat.repr total_ref_tags := by
  unfold calculate_statistics
  rw [if_pos h]
  exact ⟨rfl, rfl, rfl, rfl⟩

theorem claim_C10_witness :
    ((0 : Nat) = 0 ∨ (5 : Nat) = 0) ∧
    ((calculate_statistics 3 0 5).naive_ani = 0 ∧
     (calculate_statistics 3 0 5).adjusted_ani = 0 ∧
     (calculate_statistics 3 0 5).eff_cov = 0 ∧
     (calculate_statistics 3 0 5).containment_ind = Nat.repr 3 ++ "/" ++ Nat.repr 5) :=
  ⟨Or.inl rfl, claim_C10 3 0 5 (Or.inl rfl)⟩

/-- **C4 (amended).** The claimed formula
`naive_ani = (shared/ref)^(1/k) * 100` holds only on the branch
`shared_tags ≥ MIN_SHARED_TAGS` (with the fixed `K = 31`, not the marker
length); below that threshold the source instead reports
`shared/MIN_SHARED_TAGS * 80` (see the counterexample). -/
theorem claim_C4 (s q t : Nat) (hq : q ≠ 0) (ht : t ≠ 0) (hs : 10 ≤ s) :
    (calculate_statistics s q t).naive_ani = ((s : ℝ) / (t : ℝ)) ^ ((1 : ℝ) / 31) * 100 := by
  rw [calculate_statistics_naive_ani_ge (not_or.mpr ⟨hq, ht⟩) hs]
  unfold K
  rfl

theorem claim_C4_witness :
    ((5 : Nat) ≠ 0 ∧ (20 : Nat) ≠ 0 ∧ 10 ≤ (10 : Nat)) ∧
    (calculate_statistics 10 5 20).naive_ani =
      (((10 : Nat) : ℝ) / ((20 : Nat) : ℝ)) ^ ((1 : ℝ) / 31) * 100 :=
  ⟨⟨by decide, by decide, by decide⟩, claim_C4 10 5 20 (by decide) (by decide) (by decide)⟩

/-- **C4 counterexample.** At `shared = query = ref = 1` (both inputs nonzero,
so the zero guard does not fire) the source returns
`naive_ani = 1/10 * 80 = 8`, not the claimed `(1/1)^(1/31) * 100 = 100`:
below `MIN_SHARED_TAGS` shared tags the power-law formula is not used. -/
theorem claim_C4_counterexample :
    (calculate_statistics 1 1 1).naive_ani ≠
      (((1 : Nat) : ℝ) / ((1 : Nat) : ℝ)) ^ ((1 : ℝ) / 31) * 100 := by
  rw [calculate_statistics_naive_ani_lt (not_or.mpr ⟨one_ne_zero, one_ne_zero⟩) (by decide)]
  rw [show (((1 : Nat) : ℝ) / ((1 : Nat) : ℝ)) = 1 from by norm_num, Real.one_rpow]
  norm_num [MIN_SHARED_TAGS]

theorem query_pair_result_shared_tags (ts : List Nat) (n : Nat) (p src : String)
    (db : SyldbEntry) :
    (query_pair_result ts n p src db).shared_tags =
      db.tags.countP (fun tag => ts.contains tag) := rfl

/-- `filter_results` accepts exactly the results with a positive shared-tag
count: the early `return true` for `shared_tags > 0` makes the coverage and
ANI conditions unreachable, so the `min_ani` argument is ignored. -/
theorem filter_results_iff_shared_pos (r : QueryResult) (m : Option ℝ) :
    filter_results r m ↔ 0 < r.shared_tags := by
  unfold filter_results
  constructor
  · rintro ⟨h1, _⟩
    omega
  · intro h
    exact ⟨by omega, Or.inl h⟩

theorem mem_query_group_results_iff (sample_entries : List SylspEntry)
    (db_entries : List SyldbEntry) (db_path sample_source : String) (min_ani : ℝ)
    (db : SyldbEntry) (hdb : db ∈ db_entries) :
    query_pair_result (sample_entries.map (fun e => e.tag)) sample_entries.length
        db_path sample_source db ∈
      query_group_results sample_entries db_entries db_path sample_source min_ani ↔
    0 < db.tags.countP (fun tag => (sample_entries.map (fun e => e.tag)).contains tag) := by
  unfold query_group_results
  dsimp only
  constructor
  · intro hmem
    rw [List.mem_filterMap] at hmem
    obtain ⟨a, _, ha⟩ := hmem
    by_cases hf : filter_results (query_pair_result (sample_entries.map (fun e => e.tag))
        sample_entries.length db_path sample_source a) (some min_ani)
    · rw [if_pos hf] at ha
      have heq := Option.some.inj ha
      have hpos := (filter_results_iff_shared_pos _ _).mp hf
      rw [heq, query_pair_result_shared_tags] at hpos
      exact hpos
    · rw [if_neg hf] at ha
      exact absurd ha (by simp)
  · intro hpos
    rw [List.mem_filterMap]
    refine ⟨db, hdb, ?_⟩
    dsimp only
    rw [if_pos ((filter_results_iff_shared_pos _ _).mpr
      (by rw [query_pair_result_shared_tags]; exact hpos))]

theorem query_group_results_eq_nil (sample_entries : List SylspEntry)
    (db_entries : List SyldbEntry) (db_path sample_source : String) (min_ani : ℝ)
    (h : ∀ db ∈ db_entries,
      db.tags.countP (fun tag => (sample_entries.map (fun e => e.tag)).contains tag) = 0) :
    query_group_results sample_entries db_entries db_path sample_source min_ani = [] := by
  unfold query_group_results
  dsimp only
  rw [List.filterMap_eq_nil_iff]
  intro a ha
  rw [if_neg]
  intro hf
  have hpos := (filter_results_iff_shared_pos _ _).mp hf
  rw [query_pair_result_shared_tags, h a ha] at hpos
  exact absurd hpos (by omega)

/-- **C1 (amended).** For every minimum-ANI threshold, a (sample group,
reference record) pair is reported by the query loop if and only if it has a
positive shared-tag count — the ANI threshold plays no role, because
`filter_results` returns `true` as soon as `shared_tags > 0` (see the
counterexample for a reported pair with adjusted ANI below the threshold).
The zero-overlap half of the original claim does hold: a sample sharing no
tags with any reference yields an empty result list. -/
theorem claim_C1 (sample_entries : List SylspEntry) (db_entries : List SyldbEntry)
    (db_path sample_source : String) (min_ani : ℝ) :
    (∀ db ∈ db_entries,
      (query_pair_result (sample_entries.map (fun e => e.tag)) sample_entries.length
          db_path sample_source db ∈
        query_group_results sample_entries db_entries db_path sample_source min_ani ↔
      0 < db.tags.countP (fun tag =>
        (sample_entries.map (fun e => e.tag)).contains tag))) ∧
    ((∀ db ∈ db_entries, db.tags.countP (fun tag =>
        (sample_entries.map (fun e => e.tag)).contains tag) = 0) →
      query_group_results sample_entries db_entries db_path sample_source min_ani = []) :=
  ⟨fun db hdb => mem_query_group_results_iff sample_entries db_entries db_path
      sample_source min_ani db hdb,
   fun h => query_group_results_eq_nil sample_entries db_entries db_path
      sample_source min_ani h⟩

def c1db : SyldbEntry := ⟨"contig1", [7], [0], "genomeA", none⟩

def c1entry : SylspEntry := ⟨"read1", 7, none, "sampleA"⟩

/-- **C1 counterexample.** A database record with a single tag that also
occurs in the single-read sample is reported at threshold `min_ani = 50`
even though its adjusted ANI is `1/10 * 80 = 8 < 50`: the ANI filter in
`filter_results` is dead code. -/
theorem claim_C1_counterexample :
    query_pair_result [7] 1 "db.syldb" "sampleA" c1db ∈
      query_group_results [c1entry] [c1db] "db.syldb" "sampleA" 50 ∧
    (query_pair_result [7] 1 "db.syldb" "sampleA" c1db).adjusted_ani < 50 := by
  constructor
  · exact (mem_query_group_results_iff [c1entry] [c1db] "db.syldb" "sampleA" 50 c1db
      (List.mem_cons_self c1db [])).mpr (by decide)
  · rw [show (query_pair_result [7] 1 "db.syldb" "sampleA" c1db).adjusted_ani =
        (calculate_statistics 1 1 1).adjusted_ani from rfl]
    rw [calculate_statistics_adjusted_ani_lt (not_or.mpr ⟨one_ne_zero, one_ne_zero⟩)
      (by decide)]
    norm_num [MIN_SHARED_TAGS]

/-!
## contain.rs: stability filter (`filter_over_reassigned_genomes`)

`f64` arithmetic on these values is pure field arithmetic (division, powers,
comparison), modeled exactly over `ℚ`; `f64::powf(a, 31.0)` is `a ^ (31 : ℕ)`.
The `FxHashMap` built by inserting every old result keyed on `genome_file`
(later inserts overwrite earlier ones) is modeled by `find?` on the reversed
list.  The `usize` subtraction `old.shared_tags - result.shared_tags` is `ℕ`
truncated subtraction (the source would panic on underflow in debug builds).
-/

def lookupOldResult (results_old : List QueryResult) (genome : String) :
    Option QueryResult :=
  results_old.reverse.find? (fun r => r.genome_file == genome)

/-- contain.rs:376-419 `filter_over_reassigned_genomes`: a new result is kept
iff its genome has no old result, or
`(old.shared_tags - new.shared_tags) < (ani_thresh/100)^k * new.ref_tags`. -/
def filter_over_reassigned_genomes (results_old results_new : List QueryResult)
    (ani_thresh : ℚ) (k : Nat) : List QueryResult :=
  let ani_thresh := ani_thresh / 100
  let threshold := ani_thresh ^ k
  results_new.filter (fun result =>
    match lookupOldResult results_old result.genome_file with
    | some old_res =>
        decide (((old_res.shared_tags - result.shared_tags : Nat) : ℚ) <
          threshold * (result.ref_tags : ℚ))
    | none => true)

theorem mem_filter_over_reassigned_iff (results_old results_new : List QueryResult)
    (ani_thresh : ℚ) (k : Nat) (r : QueryResult) :
    r ∈ filter_over_reassigned_genomes results_old results_new ani_thresh k ↔
      r ∈ results_new ∧
        ∀ o, lookupOldResult results_old r.genome_file = some o →
          ((o.shared_tags - r.shared_tags : Nat) : ℚ) <
            (ani_thresh / 100) ^ k * (r.ref_tags : ℚ) := by
  unfold filter_over_reassigned_genomes
  rw [List.mem_filter]
  constructor
  · rintro ⟨hmem, hp⟩
    refine ⟨hmem, fun o ho => ?_⟩
    rw [ho] at hp
    exact of_decide_eq_true hp
  · rintro ⟨hmem, h⟩
    refine ⟨hmem, ?_⟩
    rcases ho : lookupOldResult results_old r.genome_file with _ | o
    · rfl
    · exact decide_eq_true (h o ho)

/-- **C7 (amended).** In the stability filter a new result for a genome with
an old result is retained iff
`old.shared − new.shared < (ani_thresh/100)^k * new.ref_tags` — equivalently
it is dropped as soon as the loss **reaches** (not strictly exceeds) the
threshold — and `ani_thresh` is the caller's `effective_min_ani`
(`minimum_ani`, defaulting to `PROFILE_MIN_ANI = 95.0`), so the default ratio
is 0.95, not the claimed 0.99 (see the counterexample). Results for genomes
without an old result are always retained. -/
theorem claim_C7 (results_old results_new : List QueryResult) (ani_thresh : ℚ)
    (k : Nat) (r : QueryResult) :
    r ∈ filter_over_reassigned_genomes results_old results_new ani_thresh k ↔
      r ∈ results_new ∧
        ∀ o, lookupOldResult results_old r.genome_file = some o →
          ((o.shared_tags - r.shared_tags : Nat) : ℚ) <
            (ani_thresh / 100) ^ k * (r.ref_tags : ℚ) :=
  mem_filter_over_reassigned_iff results_old results_new ani_thresh k r

noncomputable def mkQR (genome : String) (shared ref : Nat) : QueryResult :=
  { sample_file := "", genome_file := genome, contig_name := "", adjusted_ani := 0,
    eff_cov := 0, ani_percentile := (0, 0), eff_lambda := 0,
    lambda_percentile := (0, 0), median_cov := 0, mean_cov_geq1 := 0,
    containment_ind := "", naive_ani := 0, ref_tags := ref, shared_tags := shared,
    query_tags := 0, taxonomic_abundance := 0, sequence_abundance := 0 }

noncomputable def c7old : QueryResult := mkQR "g" 100 100

noncomputable def c7new : QueryResult := mkQR "g" 50 100

/-- **C7 counterexample.** With the default `effective_min_ani = 95` and
`k = 31`, a genome with 100 initial shared tags of which 50 are lost
(`ref_tags = 100`) is dropped by the code, yet the claimed condition
`lost > |markers| * 0.99^31` is false (`100 * 0.99^31 ≈ 73.2 > 50`): the
filter's default redundancy ratio is 0.95, not 0.99. -/
theorem claim_C7_counterexample :
    c7new ∉ filter_over_reassigned_genomes [c7old] [c7new] 95 31 ∧
    ¬(((c7old.shared_tags - c7new.shared_tags : Nat) : ℚ) >
        (c7new.ref_tags : ℚ) * (99 / 100 : ℚ) ^ 31) := by
  constructor
  · intro hmem
    have h := (mem_filter_over_reassigned_iff [c7old] [c7new] 95 31 c7new).mp hmem
    exact absurd (h.2 c7old rfl) (by norm_num [c7old, c7new, mkQR])
  · norm_num [c7old, c7new, mkQR]

/-!
## contain.rs: profile abundance step

contain.rs:1640-1685, the per-sample-group tail of `profile`: sort by
descending ANI, `retain` the profile thresholds, then assign abundances from
the two precomputed coverage totals.  The `f64` arithmetic here is pure field
arithmetic, modeled exactly over `ℚ`.
-/

structure GenomeProfileResult where
  genome_id : String
  sample_id : String
  file_path : String
  adjusted_ani : ℚ
  taxonomic_abundance : ℚ
  sequence_abundance : ℚ
  common_tags : Nat
  total_tags : Nat
  eff_cov : ℚ

/-- contain.rs:508 `const PROFILE_MIN_COVERAGE: f64 = 0.005` -/
def PROFILE_MIN_COVERAGE : ℚ := 1 / 200

/-- contain.rs:1645-1650, the `retain` predicate (`effective_min_ani` is
`minimum_ani.unwrap_or(PROFILE_MIN_ANI)`). -/
def profileRetain (effective_min_ani : ℚ) (r : GenomeProfileResult) : Bool :=
  decide (MIN_SHARED_TAGS ≤ r.common_tags) &&
  decide (PROFILE_MIN_COVERAGE ≤ r.eff_cov) &&
  decide (effective_min_ani ≤ r.adjusted_ani) &&
  decide (MIN_TAGS_FOR_GENOME ≤ r.total_tags)

/-- `sort_by(|a, b| b.adjusted_ani.partial_cmp(&a.adjusted_ani))`:
`a` may precede `b` when `b.adjusted_ani ≤ a.adjusted_ani`. -/
def aniGE (a b : GenomeProfileResult) : Prop := b.adjusted_ani ≤ a.adjusted_ani

instance : DecidableRel aniGE :=
  fun a b => inferInstanceAs (Decidable (b.adjusted_ani ≤ a.adjusted_ani))

/-- contain.rs:1666-1684, the abundance assignment for one result given the
two precomputed totals. -/
def applyAbundance (total_genome_cov total_seq_cov : ℚ) (r : GenomeProfileResult) :
    GenomeProfileResult :=
  if 0 < r.common_tags then
    { r with
      taxonomic_abundance :=
        if 0 < total_genome_cov then r.eff_cov / total_genome_cov * 100 else 0
      sequence_abundance :=
        if 0 < total_seq_cov then r.eff_cov * (r.total_tags : ℚ) / total_seq_cov * 100
        else 0 }
  else { r with taxonomic_abundance := 0, sequence_abundance := 0 }

/-- contain.rs:1640-1685, one iteration of the per-sample-group loop
(the Rust stable `sort_by` is modeled by `insertionSort`). -/
def profile_abundance_step (effective_min_ani : ℚ) (group : List GenomeProfileResult) :
    List GenomeProfileResult :=
  let sorted := group.insertionSort aniGE
  let retained := sorted.filter (profileRetain effective_min_ani)
  let total_genome_cov : ℚ :=
    (retained.map (fun r => if 0 < r.common_tags then r.eff_cov else 0)).sum
  let total_seq_cov : ℚ :=
    (retained.map (fun r =>
      if 0 < r.common_tags then r.eff_cov * (r.total_tags : ℚ) else 0)).sum
  retained.map (applyAbundance total_genome_cov total_seq_cov)

theorem applyAbundance_eff_cov (T TS : ℚ) (r : GenomeProfileResult) :
    (applyAbundance T TS r).eff_cov = r.eff_cov := by
  unfold applyAbundance
  split <;> rfl

theorem applyAbundance_tax (T TS : ℚ) (r : GenomeProfileResult)
    (hc : 0 < r.common_tags) (hT : 0 < T) :
    (applyAbundance T TS r).taxonomic_abundance = r.eff_cov / T * 100 := by
  unfold applyAbundance
  rw [if_pos hc]
  dsimp only
  rw [if_pos hT]

theorem profileRetain_common_pos {m : ℚ} {r : GenomeProfileResult}
    (h : profileRetain m r = true) : 0 < r.common_tags := by
  unfold profileRetain at h
  rw [Bool.and_eq_true, Bool.and_eq_true, Bool.and_eq_true] at h
  have h1 := of_decide_eq_true h.1.1.1
  unfold MIN_SHARED_TAGS at h1
  omega

theorem profileRetain_cov_pos {m : ℚ} {r : GenomeProfileResult}
    (h : profileRetain m r = true) : 0 < r.eff_cov := by
  unfold profileRetain at h
  rw [Bool.and_eq_true, Bool.and_eq_true, Bool.and_eq_true] at h
  have h2 := of_decide_eq_true h.1.1.2
  have h0 : (0 : ℚ) < PROFILE_MIN_COVERAGE := by norm_num [PROFILE_MIN_COVERAGE]
  linarith

/-- **C8.** If a sample group has at least one reference surviving the
profile thresholds, then every output reference's `taxonomic_abundance`
equals its effective coverage divided by the total effective coverage of the
output, times 100, and the taxonomic abundances sum to exactly 100 (the `ℚ`
model of the `f64` computation is exact, hence well within the claimed 1e-6). -/
theorem claim_C8 (effective_min_ani : ℚ) (group : List GenomeProfileResult)
    (h : ∃ r ∈ group, profileRetain effective_min_ani r = true) :
    (∀ r ∈ profile_abundance_step effective_min_ani group,
      r.taxonomic_abundance =
        r.eff_cov / ((profile_abundance_step effective_min_ani group).map
          (fun x => x.eff_cov)).sum * 100) ∧
    ((profile_abundance_step effective_min_ani group).map
      (fun r => r.taxonomic_abundance)).sum = 100 := by
  obtain ⟨r0, hr0g, hr0⟩ := h
  unfold profile_abundance_step
  dsimp only
  set R := (group.insertionSort aniGE).filter (profileRetain effective_min_ani) with hRdef
  set T := (R.map (fun r => if 0 < r.common_tags then r.eff_cov else 0)).sum with hTdef
  set TS := (R.map (fun r =>
    if 0 < r.common_tags then r.eff_cov * (r.total_tags : ℚ) else 0)).sum with hTSdef
  have hmemR : ∀ r ∈ R, profileRetain effective_min_ani r = true :=
    fun r hr => (List.mem_filter.mp hr).2
  have hR0 : r0 ∈ R :=
    List.mem_filter.mpr
      ⟨(List.Perm.mem_iff (List.perm_insertionSort aniGE group)).mpr hr0g, hr0⟩
  have hne : R ≠ [] := fun hnil => by
    rw [hnil] at hR0
    exact List.not_mem_nil r0 hR0
  have hTeq : T = (R.map (fun r => r.eff_cov)).sum := by
    rw [hTdef]
    congr 1
    exact List.map_congr_left
      (fun r hr => if_pos (profileRetain_common_pos (hmemR r hr)))
  have hTpos : 0 < T := by
    rw [hTeq]
    apply List.sum_pos
    · intro x hx
      rw [List.mem_map] at hx
      obtain ⟨r, hr, rfl⟩ := hx
      exact profileRetain_cov_pos (hmemR r hr)
    · intro hmapnil
      exact hne (List.map_eq_nil_iff.mp hmapnil)
  have hout_eff : ((R.map (applyAbundance T TS)).map (fun x => x.eff_cov)).sum = T := by
    have hcomp : R.map ((fun x => x.eff_cov) ∘ applyAbundance T TS) =
        R.map (fun r => r.eff_cov) :=
      List.map_congr_left (fun r hr => applyAbundance_eff_cov T TS r)
    rw [List.map_map, hcomp, ← hTeq]
  constructor
  · intro r' hr'
    rw [List.mem_map] at hr'
    obtain ⟨r, hrR, rfl⟩ := hr'
    rw [hout_eff, applyAbundance_tax T TS r (profileRetain_common_pos (hmemR r hrR)) hTpos,
      applyAbundance_eff_cov]
  · have hmap : (R.map (applyAbundance T TS)).map (fun r => r.taxonomic_abundance) =
        R.map (fun r => r.eff_cov * (100 / T)) := by
      rw [List.map_map]
      refine List.map_congr_left (fun r hr => ?_)
      have := applyAbundance_tax T TS r (profileRetain_common_pos (hmemR r hr)) hTpos
      rw [Function.comp_apply, this]
      ring
    rw [hmap, List.sum_map_mul_right, ← hTeq]
    have hT0 : T ≠ 0 := hTpos.ne'
    field_simp

def c8r : GenomeProfileResult := ⟨"g1", "s1", "f1", 95, 0, 0, 10, 50, 1⟩

theorem claim_C8_witness :
    (∃ r ∈ [c8r], profileRetain 95 r = true) ∧
    ((∀ r ∈ profile_abundance_step 95 [c8r],
        r.taxonomic_abundance =
          r.eff_cov / ((profile_abundance_step 95 [c8r]).map
            (fun x => x.eff_cov)).sum * 100) ∧
     ((profile_abundance_step 95 [c8r]).map
       (fun r => r.taxonomic_abundance)).sum = 100) :=
  ⟨⟨c8r, List.mem_cons_self c8r [], by
      norm_num [profileRetain, c8r, PROFILE_MIN_COVERAGE, MIN_SHARED_TAGS,
        MIN_TAGS_FOR_GENOME]⟩,
   claim_C8 95 [c8r] ⟨c8r, List.mem_cons_self c8r [], by
      norm_num [profileRetain, c8r, PROFILE_MIN_COVERAGE, MIN_SHARED_TAGS,
        MIN_TAGS_FOR_GENOME]⟩⟩

/-!
## extract.rs: enzyme tag extraction, scalar vs AVX2 path

Sequences are byte lists.  Each enzyme regex (extract.rs:249-311) is a
concatenation of fixed one-byte character classes, modeled as
`List (List Nat)` (the list of allowed bytes per position); `find_iter` is
modeled as the leftmost non-overlapping scan `findIter`.  Both extraction
paths (extract.rs:39-91 `extract_tags_avx2` and extract.rs:656-702
`extract_and_validate_tags`) run the same matching, slicing,
canonicalisation and first-seen deduplication; the AVX2 path additionally
validates the sliced tag with `is_valid_dna_avx2`, whose per-byte semantics
(both its scalar `< 32`-byte branch and its `_mm256_cmpeq_epi8`-mask chunks)
is membership in `{A, C, G, T}`, modeled by `is_valid_dna`. -/

/-- extract.rs:95-134 `is_valid_dna_avx2`: every byte is `A`, `C`, `G` or
`T`. -/
def is_valid_dna (s : List Nat) : Bool := s.all (fun b => decide (isACGT b))

/-- extract.rs:684-689: the centered `tag_length` slice of a match longer
than `tag_length`, the whole match otherwise. -/
def processMatchTag (tag_length : Nat) (matched : List Nat) : List Nat :=
  if tag_length < matched.length then
    (matched.drop ((matched.length - tag_length) / 2)).take tag_length
  else matched

/-- One fixed-length class-concatenation pattern matches a window. -/
def classMatch (cls : List (List Nat)) (w : List Nat) : Bool :=
  (w.length == cls.length) && (cls.zip w).all (fun p => p.1.contains p.2)

/-- Leftmost non-overlapping matching (`Regex::find_iter`); the fuel bounds
the scan by the input length. -/
def findIterAux (cls : List (List Nat)) : Nat → List Nat → List (List Nat)
  | 0, _ => []
  | _, [] => []
  | fuel + 1, b :: rest =>
    if classMatch cls ((b :: rest).take cls.length) then
      (b :: rest).take cls.length :: findIterAux cls fuel ((b :: rest).drop cls.length)
    else findIterAux cls fuel rest

def findIter (cls : List (List Nat)) (s : List Nat) : List (List Nat) :=
  findIterAux cls (s.length + 1) s

/-- extract.rs:680-699, the match loop of `extract_and_validate_tags`
(scalar path): slice, canonicalise, keep first occurrences. -/
def scalarTagLoop (tl : Nat) (seen : List (List Nat)) :
    List (List Nat) → List (List Nat)
  | [] => []
  | matched :: rest =>
    if seen.contains (get_canonical_sequence (processMatchTag tl matched)) then
      scalarTagLoop tl seen rest
    else
      get_canonical_sequence (processMatchTag tl matched) ::
        scalarTagLoop tl (get_canonical_sequence (processMatchTag tl matched) :: seen) rest

/-- extract.rs:56-88, the match loop of `extract_tags_avx2`: as the scalar
loop, but a tag failing DNA validation is skipped (`continue`). -/
def avx2TagLoop (tl : Nat) (seen : List (List Nat)) :
    List (List Nat) → List (List Nat)
  | [] => []
  | matched :: rest =>
    if is_valid_dna (processMatchTag tl matched) then
      if seen.contains (get_canonical_sequence (processMatchTag tl matched)) then
        avx2TagLoop tl seen rest
      else
        get_canonical_sequence (processMatchTag tl matched) ::
          avx2TagLoop tl (get_canonical_sequence (processMatchTag tl matched) :: seen) rest
    else avx2TagLoop tl seen rest

structure EnzymeSpec where
  name : String
  patterns : List (List (List Nat))
deriving DecidableEq

/-- The class of bytes `[ACGT]`. -/
def acgt : List Nat := [65, 67, 71, 84]

/-- extract.rs:266-269 `BcgI` (named separately for the witness). -/
def bcgISpec : EnzymeSpec :=
  ⟨"BcgI",
   [List.replicate 10 acgt ++ [[67], [71], [65]] ++ List.replicate 6 acgt ++
      [[84], [71], [67]] ++ List.replicate 10 acgt,
    List.replicate 10 acgt ++ [[71], [67], [65]] ++ List.replicate 6 acgt ++
      [[84], [67], [71]] ++ List.replicate 10 acgt]⟩

/-- extract.rs:249-311 `ENZYME_DEFINITIONS`, each regex expanded into its
per-position byte classes (`A` = 65, `C` = 67, `G` = 71, `T` = 84). -/
def ENZYME_DEFINITIONS : List EnzymeSpec :=
  [⟨"CspCI",
    [List.replicate 11 acgt ++ [[67], [65], [65]] ++ List.replicate 5 acgt ++
       [[71], [84], [71], [71]] ++ List.replicate 10 acgt,
     List.replicate 10 acgt ++ [[67], [67], [65], [67]] ++ List.replicate 5 acgt ++
       [[84], [84], [71]] ++ List.replicate 11 acgt]⟩,
   ⟨"AloI",
    [List.replicate 7 acgt ++ [[71], [65], [65], [67]] ++ List.replicate 6 acgt ++
       [[84], [67], [67]] ++ List.replicate 7 acgt,
     List.replicate 7 acgt ++ [[71], [71], [65]] ++ List.replicate 6 acgt ++
       [[71], [84], [84], [67]] ++ List.replicate 7 acgt]⟩,
   ⟨"BsaXI",
    [List.replicate 9 acgt ++ [[65], [67]] ++ List.replicate 5 acgt ++
       [[67], [84], [67], [67]] ++ List.replicate 7 acgt,
     List.replicate 7 acgt ++ [[71], [71], [65], [71]] ++ List.replicate 5 acgt ++
       [[71], [84]] ++ List.replicate 9 acgt]⟩,
   ⟨"BaeI",
    [List.replicate 10 acgt ++ [[65], [67]] ++ List.replicate 4 acgt ++
       [[71], [84], [65], [67, 84], [67]] ++ List.replicate 7 acgt,
     List.replicate 7 acgt ++ [[71], [65, 71], [84], [65], [67]] ++
       List.replicate 4 acgt ++ [[71], [84]] ++ List.replicate 10 acgt]⟩,
   bcgISpec,
   ⟨"CjeI",
    [List.replicate 8 acgt ++ [[67], [67], [65]] ++ List.replicate 6 acgt ++
       [[71], [84]] ++ List.replicate 9 acgt,
     List.replicate 9 acgt ++ [[65], [67]] ++ List.replicate 6 acgt ++
       [[84], [71], [71]] ++ List.replicate 8 acgt]⟩,
   ⟨"PpiI",
    [List.replicate 7 acgt ++ [[71], [65], [65], [67]] ++ List.replicate 5 acgt ++
       [[67], [84], [67]] ++ List.replicate 8 acgt,
     List.replicate 8 acgt ++ [[71], [65], [71]] ++ List.replicate 5 acgt ++
       [[71], [84], [84], [67]] ++ List.replicate 7 acgt]⟩,
   ⟨"PsrI",
    [List.replicate 7 acgt ++ [[71], [65], [65], [67]] ++ List.replicate 6 acgt ++
       [[84], [65], [67]] ++ List.replicate 7 acgt,
     List.replicate 7 acgt ++ [[71], [84], [65]] ++ List.replicate 6 acgt ++
       [[71], [84], [84], [67]] ++ List.replicate 7 acgt]⟩,
   ⟨"BplI",
    [List.replicate 8 acgt ++ [[71], [65], [71]] ++ List.replicate 5 acgt ++
       [[67], [84], [67]] ++ List.replicate 8 acgt]⟩,
   ⟨"FalI",
    [List.replicate 8 acgt ++ [[65], [65], [71]] ++ List.replicate 5 acgt ++
       [[67], [84], [84]] ++ List.replicate 8 acgt]⟩,
   ⟨"Bsp24I",
    [List.replicate 8 acgt ++ [[71], [65], [67]] ++ List.replicate 6 acgt ++
       [[84], [71], [71]] ++ List.replicate 7 acgt,
     List.replicate 7 acgt ++ [[67], [67], [65]] ++ List.replicate 6 acgt ++
       [[71], [84], [67]] ++ List.replicate 8 acgt]⟩,
   ⟨"HaeIV",
    [List.replicate 7 acgt ++ [[71], [65], [67, 84]] ++ List.replicate 5 acgt ++
       [[65, 71], [84], [67]] ++ List.replicate 9 acgt,
     List.replicate 9 acgt ++ [[71], [65], [67, 84]] ++ List.replicate 5 acgt ++
       [[65, 71], [84], [67]] ++ List.replicate 7 acgt]⟩,
   ⟨"CjePI",
    [List.replicate 7 acgt ++ [[67], [67], [65]] ++ List.replicate 7 acgt ++
       [[84], [67]] ++ List.replicate 8 acgt,
     List.replicate 8 acgt ++ [[71], [65]] ++ List.replicate 7 acgt ++
       [[84], [71], [71]] ++ List.replicate 7 acgt]⟩,
   ⟨"Hin4I",
    [List.replicate 8 acgt ++ [[71], [65], [67, 84]] ++ List.replicate 5 acgt ++
       [[71, 65, 67], [84], [67]] ++ List.replicate 8 acgt,
     List.replicate 8 acgt ++ [[71], [65], [67, 84, 71]] ++ List.replicate 5 acgt ++
       [[65, 71], [84], [67]] ++ List.replicate 8 acgt]⟩,
   ⟨"AlfI",
    [List.replicate 10 acgt ++ [[71], [67], [65]] ++ List.replicate 6 acgt ++
       [[84], [71], [67]] ++ List.replicate 10 acgt]⟩,
   ⟨"BslFI",
    [List.replicate 6 acgt ++ [[71], [71], [71], [65], [67]] ++ List.replicate 14 acgt,
     List.replicate 14 acgt ++ [[71], [84], [67], [67], [67]] ++ List.replicate 6 acgt]⟩]

/-- extract.rs:314-331 `ENZYME_TAG_LENGTHS`. -/
def ENZYME_TAG_LENGTHS : List (String × Nat) :=
  [("CspCI", 33), ("AloI", 20), ("BsaXI", 27), ("BaeI", 27), ("BcgI", 32),
   ("CjeI", 28), ("PpiI", 27), ("PsrI", 27), ("BplI", 27), ("FalI", 27),
   ("Bsp24I", 27), ("HaeIV", 25), ("CjePI", 27), ("Hin4I", 25), ("AlfI", 32),
   ("BslFI", 25)]

/-- extract.rs:49-53 / 674-678: the tag length lookup (`Err` on an unknown
enzyme, modeled by `none`). -/
def lookupTagLength (name : String) : Option Nat :=
  (ENZYME_TAG_LENGTHS.find? (fun p => p.1 == name)).map (fun p => p.2)

/-- extract.rs:656-702 `extract_and_validate_tags`, scalar branch. -/
def extract_and_validate_tags (enzyme : EnzymeSpec) (seq : List Nat) :
    Option (List (List Nat)) :=
  (lookupTagLength enzyme.name).map (fun tag_length =>
    scalarTagLoop tag_length [] (enzyme.patterns.flatMap (fun p => findIter p seq)))

/-- extract.rs:39-91 `extract_tags_avx2`. -/
def extract_tags_avx2 (enzyme : EnzymeSpec) (seq : List Nat) :
    Option (List (List Nat)) :=
  (lookupTagLength enzyme.name).map (fun tag_length =>
    avx2TagLoop tag_length [] (enzyme.patterns.flatMap (fun p => findIter p seq)))

theorem findIterAux_matches (cls : List (List Nat)) :
    ∀ (fuel : Nat) (s w : List Nat), w ∈ findIterAux cls fuel s →
      classMatch cls w = true := by
  intro fuel
  induction fuel with
  | zero =>
    intro s w hw
    simp [findIterAux] at hw
  | succ n ih =>
    intro s w hw
    cases s with
    | nil => simp [findIterAux] at hw
    | cons b rest =>
      unfold findIterAux at hw
      by_cases hm : classMatch cls ((b :: rest).take cls.length) = true
      · rw [if_pos hm] at hw
        rcases List.mem_cons.mp hw with h | h
        · rw [h]
          exact hm
        · exact ih _ w h
      · rw [if_neg hm] at hw
        exact ih rest w hw

theorem zip_all_contains_ACGT :
    ∀ (cls : List (List Nat)) (w : List Nat),
      (∀ c ∈ cls, ∀ b ∈ c, isACGT b) → w.length = cls.length →
      (cls.zip w).all (fun p => p.1.contains p.2) = true →
      ∀ b ∈ w, isACGT b := by
  intro cls
  induction cls with
  | nil =>
    intro w _ hlen _ b hb
    have hw : w = [] := List.length_eq_zero.mp (by simpa using hlen)
    rw [hw] at hb
    exact absurd hb (List.not_mem_nil b)
  | cons c cs ih =>
    intro w hcls hlen hall b hb
    cases w with
    | nil => exact absurd hb (List.not_mem_nil b)
    | cons x xs =>
      rw [List.zip_cons_cons, List.all_cons, Bool.and_eq_true] at hall
      rcases List.mem_cons.mp hb with rfl | hb'
      · have hxmem : b ∈ c := by simpa using hall.1
        exact hcls c (List.mem_cons_self c cs) b hxmem
      · exact ih xs (fun c' hc' => hcls c' (List.mem_cons_of_mem c hc'))
          (by simpa using hlen) hall.2 b hb'

theorem classMatch_ACGT {cls : List (List Nat)} {w : List Nat}
    (hcls : ∀ c ∈ cls, ∀ b ∈ c, isACGT b) (hm : classMatch cls w = true) :
    ∀ b ∈ w, isACGT b := by
  unfold classMatch at hm
  rw [Bool.and_eq_true] at hm
  exact zip_all_contains_ACGT cls w hcls (by simpa using hm.1) hm.2

theorem processMatchTag_valid {tl : Nat} {m : List Nat} (hm : ∀ b ∈ m, isACGT b) :
    is_valid_dna (processMatchTag tl m) = true := by
  unfold is_valid_dna processMatchTag
  rw [List.all_eq_true]
  intro b hb
  refine decide_eq_true ?_
  split at hb
  · exact hm b (List.mem_of_mem_drop (List.mem_of_mem_take hb))
  · exact hm b hb

theorem tagLoops_agree (tl : Nat) :
    ∀ (ms seen : List (List Nat)),
      (∀ m ∈ ms, is_valid_dna (processMatchTag tl m) = true) →
      avx2TagLoop tl seen ms = scalarTagLoop tl seen ms := by
  intro ms
  induction ms with
  | nil =>
    intro seen _
    rfl
  | cons matched rest ih =>
    intro seen hval
    simp only [avx2TagLoop, scalarTagLoop]
    rw [if_pos (hval matched (List.mem_cons_self matched rest))]
    by_cases hc :
        seen.contains (get_canonical_sequence (processMatchTag tl matched)) = true
    · rw [if_pos hc, if_pos hc]
      exact ih seen (fun m hm => hval m (List.mem_cons_of_mem matched hm))
    · rw [if_neg hc, if_neg hc]
      exact congrArg (List.cons _)
        (ih _ (fun m hm => hval m (List.mem_cons_of_mem matched hm)))

/-- Every byte class of every pattern of every supported enzyme lies inside
`{A, C, G, T}` — the regexes contain no other characters. -/
theorem enzyme_patterns_ACGT :
    ∀ e ∈ ENZYME_DEFINITIONS, ∀ p ∈ e.patterns, ∀ c ∈ p, ∀ b ∈ c, isACGT b := by
  decide

/-- **C9.** For every supported enzyme and every input sequence, the
AVX2-accelerated extraction path returns exactly the same tag list, in the
same order, as the scalar implementation: every regex match consists of
`ACGT` bytes only, so the extra DNA validation of the AVX2 path never
rejects a tag. -/
theorem claim_C9 (enzyme : EnzymeSpec) (he : enzyme ∈ ENZYME_DEFINITIONS)
    (seq : List Nat) :
    extract_tags_avx2 enzyme seq = extract_and_validate_tags enzyme seq := by
  unfold extract_tags_avx2 extract_and_validate_tags
  cases hl : lookupTagLength enzyme.name with
  | none => rfl
  | some tl =>
    refine congrArg some ?_
    apply tagLoops_agree
    intro m hm
    rw [List.mem_flatMap] at hm
    obtain ⟨p, hp, hmp⟩ := hm
    unfold findIter at hmp
    have hmatch := findIterAux_matches p (seq.length + 1) seq m hmp
    exact processMatchTag_valid (classMatch_ACGT (enzyme_patterns_ACGT enzyme he p hp) hmatch)

theorem claim_C9_witness :
    bcgISpec ∈ ENZYME_DEFINITIONS ∧
    extract_tags_avx2 bcgISpec [65, 67, 71, 84] =
      extract_and_validate_tags bcgISpec [65, 67, 71, 84] :=
  ⟨by decide, claim_C9 bcgISpec (by decide) [65, 67, 71, 84]⟩

end Meta2bseek
